import Mathlib

/-!
Verification of `src/experiments/data_collection.py`.

The script writes Python dictionaries as pretty-printed JSON documents
(`json.dump(data, f, indent=2)`) into an output directory that it creates
with `os.makedirs(output_dir, exist_ok=True)`, and exposes three stub data
producers plus a `main` sequence that writes four documents.

The embedding models:
  * `PyVal` — the Python values handed to `json.dump`: JSON-like trees plus
    a `bad` leaf standing for a value with no JSON representation (a set, a
    point of circular reference, ...).  Floats are modelled as exact
    decimals `m / 10 ^ d` printed with `d` fractional digits, which is how
    the repository's literals (`85.0`, `1.2`) behave under `repr`.
  * `ser` — the text `json.dump` emits with `indent=2` semantics
    (`ensure_ascii=True` escaping, `", "`/`": "` separators, insertion
    order).  Its Boolean result is `false` when serialization raises, in
    which case the first component is the prefix streamed before failure.
  * a JSON reader `json_loads` (recursive-descent with a fuel budget)
    modelling `json.load` on the documents this program produces.
  * `St` — the filesystem and stdout state: a set of existing directories,
    an association list of file contents, and the printed lines.
    `write_json_log`, the producers and `main` are translated from the
    source on top of it.  Permission errors, file/directory name collisions
    on `os.makedirs`, and disk-full conditions are not modelled.
-/

namespace DataCollection

/-- Python values as fed to `json.dump`: JSON-like data plus `bad`, a leaf
standing for any value `json.dump` cannot serialize. -/
inductive PyVal where
  | null : PyVal
  | bool : Bool → PyVal
  | int : Int → PyVal
  | float : Int → Nat → PyVal
  | str : String → PyVal
  | arr : List PyVal → PyVal
  | obj : List (String × PyVal) → PyVal
  | bad : String → PyVal

/-- Decimal digits of a natural number, most significant first, as emitted
by Python's `int` formatting. -/
def natDigits (n : Nat) : List Char :=
  if h : n < 10 then [Char.ofNat (48 + n)]
  else natDigits (n / 10) ++ [Char.ofNat (48 + n % 10)]
  decreasing_by exact Nat.div_lt_self (by omega) (by omega)

/-- Digits of a Python `int`, sign included. -/
def serInt (n : Int) : List Char :=
  if n < 0 then '-' :: natDigits n.natAbs else natDigits n.toNat

/-- The `d` fractional digits of `k < 10 ^ d`, zero padded on the left. -/
def fracDigits (k : Nat) (d : Nat) : List Char :=
  List.replicate (d - (natDigits k).length) '0' ++ natDigits k

/-- Text of the model float `m / 10 ^ d`, as `repr` prints the repository's
float literals: integer part, a dot, then exactly `d` fractional digits. -/
def serFloat (m : Int) (d : Nat) : List Char :=
  (if m < 0 then ['-'] else []) ++
    natDigits (m.natAbs / 10 ^ d) ++ '.' :: fracDigits (m.natAbs % 10 ^ d) d

/-- One lowercase hexadecimal digit. -/
def hexDig (k : Nat) : Char :=
  if k < 10 then Char.ofNat (48 + k) else Char.ofNat (87 + k)

/-- Four lowercase hexadecimal digits, as in Python's `\uXXXX` escapes. -/
def hex4 (n : Nat) : List Char :=
  [hexDig (n / 4096 % 16), hexDig (n / 256 % 16), hexDig (n / 16 % 16), hexDig (n % 16)]

/-- The escape of one character inside a JSON string, following
`json.dump`'s default `ensure_ascii=True` encoder: shorthand escapes,
printable ASCII verbatim, `\uXXXX` otherwise, surrogate pairs beyond the
basic multilingual plane. -/
def escChar (c : Char) : List Char :=
  if c = '"' then ['\\', '"']
  else if c = '\\' then ['\\', '\\']
  else if c = '\n' then ['\\', 'n']
  else if c = '\t' then ['\\', 't']
  else if c = '\r' then ['\\', 'r']
  else if c = Char.ofNat 8 then ['\\', 'b']
  else if c = Char.ofNat 12 then ['\\', 'f']
  else if 32 ≤ c.toNat ∧ c.toNat ≤ 126 then [c]
  else if c.toNat < 65536 then '\\' :: 'u' :: hex4 c.toNat
  else
    ('\\' :: 'u' :: hex4 (55296 + (c.toNat - 65536) / 1024)) ++
      ('\\' :: 'u' :: hex4 (56320 + (c.toNat - 65536) % 1024))

/-- Escape of a whole string body. -/
def escStr : List Char → List Char
  | [] => []
  | c :: cs => escChar c ++ escStr cs

/-- A serialized JSON string, quotes included. -/
def serStrC (s : List Char) : List Char :=
  '"' :: escStr s ++ ['"']

/-- A newline followed by `ind` spaces: the indentation `json.dump` emits
before each item when an `indent` is given. -/
def nlInd (ind : Nat) : List Char :=
  '\n' :: List.replicate ind ' '

mutual

/-- The characters `json.dump(data, f, indent=ind)` streams to the file,
paired with `true` when serialization completes.  On a `bad` leaf the flag
is `false` and the first component is the prefix written before the raise
(the file has already been opened and truncated by then). -/
def ser : PyVal → Nat → List Char × Bool
  | .null, _ => (['n', 'u', 'l', 'l'], true)
  | .bool true, _ => (['t', 'r', 'u', 'e'], true)
  | .bool false, _ => (['f', 'a', 'l', 's', 'e'], true)
  | .int n, _ => (serInt n, true)
  | .float m d, _ => (serFloat m d, true)
  | .str s, _ => (serStrC s.data, true)
  | .bad _, _ => ([], false)
  | .arr [], _ => (['[', ']'], true)
  | .arr (x :: xs), ind =>
    let p := serItems (x :: xs) (ind + 2)
    ('[' :: p.1 ++ (if p.2 then nlInd ind ++ [']'] else []), p.2)
  | .obj [], _ => (['{' , '}'], true)
  | .obj (kv :: kvs), ind =>
    let p := serMembers (kv :: kvs) (ind + 2)
    ('{' :: p.1 ++ (if p.2 then nlInd ind ++ ['}'] else []), p.2)

/-- Array items, each preceded by its indentation, comma separated. -/
def serItems : List PyVal → Nat → List Char × Bool
  | [], _ => ([], true)
  | x :: xs, ind =>
    let p := ser x ind
    if p.2 then
      match xs with
      | [] => (nlInd ind ++ p.1, true)
      | y :: ys =>
        let q := serItems (y :: ys) ind
        (nlInd ind ++ p.1 ++ ',' :: q.1, q.2)
    else (nlInd ind ++ p.1, false)

/-- Object members, `"key": value`, each preceded by its indentation,
comma separated, in insertion order (`sort_keys` defaults to `False`). -/
def serMembers : List (String × PyVal) → Nat → List Char × Bool
  | [], _ => ([], true)
  | (k, v) :: kvs, ind =>
    let p := ser v ind
    if p.2 then
      match kvs with
      | [] => (nlInd ind ++ serStrC k.data ++ ':' :: ' ' :: p.1, true)
      | kv2 :: kvs2 =>
        let q := serMembers (kv2 :: kvs2) ind
        (nlInd ind ++ serStrC k.data ++ ':' :: ' ' :: p.1 ++ ',' :: q.1, q.2)
    else (nlInd ind ++ serStrC k.data ++ ':' :: ' ' :: p.1, false)

end

/-- The full document text for a serializable value, as `json.dump` writes
it at top level. -/
def json_dumps (v : PyVal) : String :=
  String.mk (ser v 0).1

mutual

/-- A value is well formed when it contains no `bad` leaf (so `json.dump`
succeeds on it), every float prints at least one fractional digit (Python
float `repr` always does), and object keys are distinct (they come from a
Python `dict`). -/
def wfB : PyVal → Bool
  | .null => true
  | .bool _ => true
  | .int _ => true
  | .float _ d => decide (1 ≤ d)
  | .str _ => true
  | .bad _ => false
  | .arr xs => wfL xs
  | .obj kvs => wfM kvs

/-- Well-formedness of a list of array items. -/
def wfL : List PyVal → Bool
  | [] => true
  | x :: xs => wfB x && wfL xs

/-- Well-formedness of object members: distinct keys, well-formed values. -/
def wfM : List (String × PyVal) → Bool
  | [] => true
  | (k, v) :: kvs => !((kvs.map Prod.fst).contains k) && wfB v && wfM kvs

end

/-- Whitespace as `json.load` skips it between tokens. -/
def isWsB (c : Char) : Bool :=
  (c == ' ') || (c == '\t') || (c == '\n') || (c == '\r')

/-- Skip leading whitespace. -/
def skipWs : List Char → List Char
  | [] => []
  | c :: cs => if isWsB c then skipWs cs else c :: cs

/-- Value of one hexadecimal digit, either case. -/
def hexVal (c : Char) : Option Nat :=
  if 48 ≤ c.toNat ∧ c.toNat ≤ 57 then some (c.toNat - 48)
  else if 97 ≤ c.toNat ∧ c.toNat ≤ 102 then some (c.toNat - 87)
  else if 65 ≤ c.toNat ∧ c.toNat ≤ 70 then some (c.toNat - 55)
  else none

/-- The shorthand escapes `json.load` accepts after a backslash. -/
def escTable (e : Char) : Option Char :=
  if e = '"' then some '"'
  else if e = '\\' then some '\\'
  else if e = '/' then some '/'
  else if e = 'n' then some '\n'
  else if e = 't' then some '\t'
  else if e = 'r' then some '\r'
  else if e = 'b' then some (Char.ofNat 8)
  else if e = 'f' then some (Char.ofNat 12)
  else none

/-- Four hexadecimal digits, as after `\u`. -/
def parseU : List Char → Option (Nat × List Char)
  | a :: b :: c :: d :: cs =>
    (match hexVal a, hexVal b, hexVal c, hexVal d with
     | some ha, some hb, some hc, some hd => some (4096 * ha + 256 * hb + 16 * hc + hd, cs)
     | _, _, _, _ => none)
  | _ => none

/-- Decoder for the body of a JSON string, positioned after the opening
quote; returns the decoded characters and the text after the closing
quote.  Escapes follow `json.load`: shorthand escapes, `\uXXXX`, and
surrogate pairs recombined into one character.  The fuel only bounds the
recursion; one unit per decoded character always suffices. -/
def parseStrBody : Nat → List Char → Option (List Char × List Char)
  | 0, _ => none
  | _ + 1, [] => none
  | f + 1, c :: cs1 =>
    if c = '"' then some ([], cs1)
    else if c = '\\' then
      match cs1 with
      | [] => none
      | e :: cs2 =>
        if e = 'u' then
          match parseU cs2 with
          | some (n, cs3) =>
            if n < 55296 ∨ 57343 < n then
              match parseStrBody f cs3 with
              | some (s, r) => some (Char.ofNat n :: s, r)
              | none => none
            else if n < 56320 then
              match cs3 with
              | u1 :: u2 :: cs4 =>
                if u1 = '\\' ∧ u2 = 'u' then
                  match parseU cs4 with
                  | some (m, cs5) =>
                    if 56320 ≤ m ∧ m < 57344 then
                      match parseStrBody f cs5 with
                      | some (s, r) =>
                        some (Char.ofNat (65536 + 1024 * (n - 55296) + (m - 56320)) :: s, r)
                      | none => none
                    else none
                  | none => none
                else none
              | _ => none
            else none
          | none => none
        else
          match escTable e with
          | some ch =>
            match parseStrBody f cs2 with
            | some (s, r) => some (ch :: s, r)
            | none => none
          | none => none
    else if c.toNat < 32 then none
    else
      match parseStrBody f cs1 with
      | some (s, r) => some (c :: s, r)
      | none => none

/-- Longest leading run of decimal digits. -/
def takeDigits : List Char → List Char × List Char
  | [] => ([], [])
  | c :: cs =>
    if c.isDigit then
      let p := takeDigits cs
      (c :: p.1, p.2)
    else ([], c :: cs)

/-- Numeric value of a digit run, most significant first. -/
def digitsVal (ds : List Char) : Nat :=
  ds.foldl (fun a c => 10 * a + (c.toNat - 48)) 0

/-- Decoder for a JSON number positioned at its first digit; `neg` records
a consumed leading minus sign.  A dot switches to the float form. -/
def parseNum (neg : Bool) (cs : List Char) : Option (PyVal × List Char) :=
  let p := takeDigits cs
  if p.1 = [] then none
  else
    match p.2 with
    | '.' :: r2 =>
      let q := takeDigits r2
      if q.1 = [] then none
      else
        let m : Nat := digitsVal p.1 * 10 ^ q.1.length + digitsVal q.1
        some (.float (if neg then -(m : Int) else (m : Int)) q.1.length, q.2)
    | _ =>
      some (.int (if neg then -(digitsVal p.1 : Int) else (digitsVal p.1 : Int)), p.2)

/-- Match an expected literal suffix such as `rue` of `true`. -/
def expectLit : List Char → List Char → Option (List Char)
  | [], cs => some cs
  | e :: es, c :: cs => if c = e then expectLit es cs else none
  | _ :: _, [] => none

mutual

/-- Fueled JSON value reader modelling `json.load`; skips leading
whitespace then dispatches. -/
def parseVal : Nat → List Char → Option (PyVal × List Char)
  | 0, _ => none
  | f + 1, cs => parseValGo f (skipWs cs)
termination_by f _ => 2 * f + 1
decreasing_by all_goals omega

/-- Dispatch on the first significant character. -/
def parseValGo : Nat → List Char → Option (PyVal × List Char)
  | _, [] => none
  | f, c :: cs =>
    if c = '{' then
      match skipWs cs with
      | '}' :: r => some (.obj [], r)
      | _ =>
        match parseMembers f cs with
        | some (kvs, r) => some (.obj kvs, r)
        | none => none
    else if c = '[' then
      match skipWs cs with
      | ']' :: r => some (.arr [], r)
      | _ =>
        match parseItems f cs with
        | some (xs, r) => some (.arr xs, r)
        | none => none
    else if c = '"' then
      match parseStrBody (cs.length + 1) cs with
      | some (s, r) => some (.str (String.mk s), r)
      | none => none
    else if c = 't' then
      match expectLit ['r', 'u', 'e'] cs with
      | some r => some (.bool true, r)
      | none => none
    else if c = 'f' then
      match expectLit ['a', 'l', 's', 'e'] cs with
      | some r => some (.bool false, r)
      | none => none
    else if c = 'n' then
      match expectLit ['u', 'l', 'l'] cs with
      | some r => some (.null, r)
      | none => none
    else if c = '-' then parseNum true cs
    else if c.isDigit then parseNum false (c :: cs)
    else none
termination_by f _ => 2 * f + 2
decreasing_by all_goals omega

/-- One or more `"key": value` members, ending at the closing brace. -/
def parseMembers : Nat → List Char → Option (List (String × PyVal) × List Char)
  | 0, _ => none
  | f + 1, cs => parseMembersGo f (skipWs cs)
termination_by f _ => 2 * f + 1
decreasing_by all_goals omega

/-- Member list dispatch, positioned at the opening quote of a key. -/
def parseMembersGo : Nat → List Char → Option (List (String × PyVal) × List Char)
  | _, [] => none
  | f, c :: cs =>
    if c = '"' then
      match parseStrBody (cs.length + 1) cs with
      | some (k, cs2) =>
        match skipWs cs2 with
        | ':' :: cs3 =>
          match parseVal f cs3 with
          | some (v, cs4) =>
            match skipWs cs4 with
            | ',' :: cs5 =>
              match parseMembers f cs5 with
              | some (kvs, r) => some ((String.mk k, v) :: kvs, r)
              | none => none
            | '}' :: cs5 => some ([(String.mk k, v)], cs5)
            | _ => none
          | none => none
        | _ => none
      | none => none
    else none
termination_by f _ => 2 * f + 2
decreasing_by all_goals omega

/-- One or more array items, ending at the closing bracket. -/
def parseItems : Nat → List Char → Option (List PyVal × List Char)
  | 0, _ => none
  | f + 1, cs => parseItemsGo f cs
termination_by f _ => 2 * f + 1
decreasing_by all_goals omega

/-- Item list dispatch: a value, then a comma or the closing bracket. -/
def parseItemsGo : Nat → List Char → Option (List PyVal × List Char)
  | f, cs =>
    match parseVal f cs with
    | some (v, cs2) =>
      match skipWs cs2 with
      | ',' :: cs3 =>
        match parseItems f cs3 with
        | some (xs, r) => some (v :: xs, r)
        | none => none
      | ']' :: cs3 => some ([v], cs3)
      | _ => none
    | none => none
termination_by f _ => 2 * f + 2
decreasing_by all_goals omega

end

/-- The model of `json.load` on a whole document: parse one value with a
fuel budget ample for anything this program writes, then require only
trailing whitespace. -/
def json_loads (s : String) : Option PyVal :=
  match parseVal (s.data.length + 1) s.data with
  | some (v, r) => if skipWs r = [] then some v else none
  | none => none

/-- Observable machine state: the set of existing directories, the files
with their contents (association list, insertion order), and the lines the
script has printed. -/
structure St where
  dirs : List String
  files : List (String × String)
  stdout : List String
deriving DecidableEq

/-- Groups of a character list split at every slash. -/
def splitSlash : List Char → List (List Char)
  | [] => [[]]
  | c :: cs =>
    if c = '/' then [] :: splitSlash cs
    else
      match splitSlash cs with
      | g :: gs => (c :: g) :: gs
      | [] => [[c]]

/-- Rejoin with slashes; inverse of `splitSlash`. -/
def joinSlash : List (List Char) → List Char
  | [] => []
  | [g] => g
  | g :: g2 :: gs => g ++ '/' :: joinSlash (g2 :: gs)

/-- The cumulative joins of an accumulated path with the remaining path
components: every ancestor `os.makedirs` has to create, outermost first. -/
def ancestorsFrom (acc : List Char) : List (List Char) → List (List Char)
  | [] => [acc]
  | g :: gs => acc :: ancestorsFrom (acc ++ '/' :: g) gs

/-- Every ancestor path of `d`, `d` itself last. -/
def ancestorPaths (d : String) : List String :=
  (match splitSlash d.data with
   | [] => []
   | g :: gs => ancestorsFrom g gs).map String.mk

/-- The model of `os.makedirs(d, exist_ok=True)`: add every missing
ancestor of `d` to the set of directories, silently keeping existing
ones. -/
def makedirs (d : String) (dirs : List String) : List String :=
  dirs ++ (ancestorPaths d).filter (fun p => !(p == "") && !(dirs.contains p))

/-- The model of `os.path.join` on POSIX paths as the script uses it. -/
def osPathJoin (a b : String) : String :=
  if b.data.head? = some '/' then b
  else if a = "" then b
  else if a.data.getLast? = some '/' then a ++ b
  else a ++ "/" ++ b

/-- Directory part of a path: everything before the last slash. -/
def dirname (p : String) : String :=
  match p.data.reverse.dropWhile (fun c => !(c == '/')) with
  | [] => ""
  | _ :: rs => String.mk rs.reverse

/-- Whether `open(p, "w")` succeeds: the parent directory exists (the
working directory always does) and no directory occupies `p` itself. -/
def canOpenW (s : St) (p : String) : Bool :=
  ((dirname p == "") || (dirname p == ".") || s.dirs.contains (dirname p)) &&
    !(s.dirs.contains p)

/-- Write or overwrite one file in the association list. -/
def setFile : List (String × String) → String → String → List (String × String)
  | [], p, c => [(p, c)]
  | (q, d) :: fs, p, c =>
    if q = p then (p, c) :: fs else (q, d) :: setFile fs p c

/-- Content of the file at `p`, when one exists. -/
def getFile (s : St) (p : String) : Option String :=
  match s.files.find? (fun qc => qc.1 == p) with
  | some qc => some qc.2
  | none => none

/-- Failures `write_json_log` can surface: `json.dump` raising on a
non-serializable value, or the file failing to open. -/
inductive Err where
  | serializationError : Err
  | filesystemError : Err
deriving DecidableEq

/-- The notice `write_json_log` prints on success. -/
def infoLine (path : String) : String :=
  "[info] Wrote log to " ++ path

/-- Outcome of one `write_json_log` call: the state afterwards, the
exception if one escaped, and the Python return value on normal
completion — the source is annotated `-> None` and has no return
statement, so a completed call returns `none`. -/
structure WOut where
  st : St
  err : Option Err
  ret : Option String
deriving DecidableEq

/-- Translation of `write_json_log(data, output_dir, filename)`: ensure
the output directory exists, join the path, open for writing (truncating),
stream the JSON dump, and on success print the notice.  A serialization
failure happens after the directory creation and the truncating open, so
the prefix streamed before the raise is what the file holds. -/
def write_json_log (data : PyVal) (output_dir : String) (filename : String) (s : St) : WOut :=
  let s1 : St := { s with dirs := makedirs output_dir s.dirs }
  let path := osPathJoin output_dir filename
  if canOpenW s1 path then
    let p := ser data 0
    let s2 : St := { s1 with files := setFile s1.files path (String.mk p.1) }
    if p.2 then
      ⟨{ s2 with stdout := s2.stdout ++ [infoLine path] }, none, none⟩
    else ⟨s2, some .serializationError, none⟩
  else ⟨s1, some .filesystemError, none⟩

/-- Translation of `run_sonarqube_analysis`: returns the fixed dummy
metrics dictionary whatever the arguments are. -/
def run_sonarqube_analysis (repo_path : String) (project_key : String) (token : String) : PyVal :=
  .obj
    [("code_smells", .int 10),
     ("bugs", .int 0),
     ("vulnerabilities", .int 0),
     ("coverage", .float 850 1),
     ("duplicated_lines_density", .float 12 1)]

/-- Translation of `capture_ai_interactions(prompt, response)`; the wall
clock the source reads through `datetime.utcnow().isoformat()` is passed
in as `now`. -/
def capture_ai_interactions (prompt : String) (response : String) (now : String) : PyVal :=
  .obj [("timestamp", .str now), ("prompt", .str prompt), ("response", .str response)]

/-- The commit metadata record `main` builds, with the clock passed in. -/
def commit_metadata (now : String) : PyVal :=
  .obj
    [("commit_hash", .str "abc123"),
     ("author", .str "developer@example.com"),
     ("timestamp", .str now),
     ("message", .str "Implement feature X"),
     ("files_changed", .arr [.str "src/module.py"])]

/-- The coverage record `main` builds. -/
def coverage_record : PyVal :=
  .obj
    [("total_lines", .int 1000),
     ("covered_lines", .int 850),
     ("coverage_percent", .float 850 1)]

/-- Translation of `main(repo_path, output_dir)`: the four writes in
sequence, an uncaught exception stopping the run.  The two clock readings
are passed in as `now1` and `now2`. -/
def main (repo_path : String) (output_dir : String) (now1 : String) (now2 : String)
    (s : St) : St × Option Err :=
  let s0 : St :=
    { s with stdout := s.stdout ++ ["[info] Starting data collection for repository: " ++ repo_path] }
  let w1 := write_json_log (commit_metadata now1) output_dir "commit_metadata.json" s0
  match w1.err with
  | some e => (w1.st, some e)
  | none =>
    let w2 := write_json_log (run_sonarqube_analysis repo_path "PROJECT_KEY" "TOKEN")
      output_dir "sonar_metrics.json" w1.st
    match w2.err with
    | some e => (w2.st, some e)
    | none =>
      let w3 := write_json_log
        (capture_ai_interactions "How to implement a binary search?"
          "Here is a Python implementation of binary search..." now2)
        output_dir "ai_interactions.json" w2.st
      match w3.err with
      | some e => (w3.st, some e)
      | none =>
        let w4 := write_json_log coverage_record output_dir "coverage.json" w3.st
        match w4.err with
        | some e => (w4.st, some e)
        | none =>
          ({ w4.st with stdout := w4.st.stdout ++ ["[info] Data collection completed."] }, none)

/-- Keys of an object record, in order. -/
def objKeys : PyVal → List String
  | .obj kvs => kvs.map Prod.fst
  | _ => []

/-- Value under a key of an object record. -/
def objLookup : PyVal → String → Option PyVal
  | .obj kvs, k =>
    (match kvs.find? (fun kv => kv.1 == k) with
     | some kv => some kv.2
     | none => none)
  | _, _ => none

mutual

/-- Node count of a value; a fuel budget of this size parses it. -/
def sz : PyVal → Nat
  | .null => 1
  | .bool _ => 1
  | .int _ => 1
  | .float _ _ => 1
  | .str _ => 1
  | .bad _ => 1
  | .arr xs => 1 + szL xs
  | .obj kvs => 1 + szM kvs

/-- Node count of array items. -/
def szL : List PyVal → Nat
  | [] => 0
  | x :: xs => 1 + sz x + szL xs

/-- Node count of object members. -/
def szM : List (String × PyVal) → Nat
  | [] => 0
  | (_, v) :: kvs => 1 + sz v + szM kvs

end

/-- Text a serialized number may be followed by: nothing, or a character
that neither extends the digit run nor starts a fraction. -/
def numStop : List Char → Prop
  | [] => True
  | c :: _ => c.isDigit = false ∧ c ≠ '.'

/-- Step of the indentation scanner: tracks the length of the space run
after a newline, closing it at the first other character. -/
def indStep : List Nat × Option Nat → Char → List Nat × Option Nat
  | (acc, none), c => if c = '\n' then (acc, some 0) else (acc, none)
  | (acc, some k), c =>
    if c = '\n' then (acc ++ [k], some 0)
    else if c = ' ' then (acc, some (k + 1))
    else (acc ++ [k], none)

/-- The lengths of the space runs that follow each newline of a text: the
per-line indentation amounts. -/
def indentRuns (cs : List Char) : List Nat :=
  match cs.foldl indStep ([], none) with
  | (acc, none) => acc
  | (acc, some k) => acc ++ [k]

/-! Character and digit facts. -/

theorem char_valid_range (c : Char) :
    c.toNat < 55296 ∨ (57343 < c.toNat ∧ c.toNat < 1114112) := by
  rcases c.valid with h | ⟨h1, h2⟩
  · exact Or.inl h
  · exact Or.inr ⟨h1, h2⟩

theorem charOfNat_toNat (n : Nat) (h : n < 55296 ∨ (57343 < n ∧ n < 1114112)) :
    (Char.ofNat n).toNat = n := by
  unfold Char.ofNat
  rw [dif_pos h]
  rfl

theorem char_ne_of_toNat {c d : Char} (h : c.toNat ≠ d.toNat) : c ≠ d := by
  intro e
  exact h (congrArg Char.toNat e)

theorem isDigit_toNat {c : Char} (h : c.isDigit = true) :
    48 ≤ c.toNat ∧ c.toNat ≤ 57 := by
  simp only [Char.isDigit, Bool.and_eq_true, decide_eq_true_eq] at h
  exact ⟨h.1, h.2⟩

theorem isDigit_of_toNat {c : Char} (h1 : 48 ≤ c.toNat) (h2 : c.toNat ≤ 57) :
    c.isDigit = true := by
  simp only [Char.isDigit, Bool.and_eq_true, decide_eq_true_eq]
  exact ⟨h1, h2⟩

theorem toNat_digitChar {k : Nat} (h : k < 10) : (Char.ofNat (48 + k)).toNat = 48 + k := by
  refine charOfNat_toNat _ (Or.inl ?_)
  omega

theorem natDigits_ne_nil (n : Nat) : natDigits n ≠ [] := by
  unfold natDigits
  split
  · simp
  · simp

theorem natDigits_digits (n : Nat) : ∀ c ∈ natDigits n, c.isDigit = true := by
  induction n using Nat.strong_induction_on with
  | _ n ih =>
    intro c hc
    unfold natDigits at hc
    split at hc
    · next h =>
      simp only [List.mem_singleton] at hc
      subst hc
      exact isDigit_of_toNat (by rw [toNat_digitChar h]; omega) (by rw [toNat_digitChar h]; omega)
    · next h =>
      rw [List.mem_append] at hc
      rcases hc with hc | hc
      · exact ih (n / 10) (Nat.div_lt_self (by omega) (by omega)) c hc
      · simp only [List.mem_singleton] at hc
        subst hc
        have h10 : n % 10 < 10 := Nat.mod_lt _ (by omega)
        exact isDigit_of_toNat (by rw [toNat_digitChar h10]; omega)
          (by rw [toNat_digitChar h10]; omega)

theorem digitsVal_append_singleton (ds : List Char) (c : Char) :
    digitsVal (ds ++ [c]) = 10 * digitsVal ds + (c.toNat - 48) := by
  simp [digitsVal, List.foldl_append]

theorem digitsVal_natDigits (n : Nat) : digitsVal (natDigits n) = n := by
  induction n using Nat.strong_induction_on with
  | _ n ih =>
    unfold natDigits
    split
    · next h =>
      simp [digitsVal, toNat_digitChar h]
    · next h =>
      rw [digitsVal_append_singleton, ih (n / 10) (Nat.div_lt_self (by omega) (by omega))]
      have h10 : n % 10 < 10 := Nat.mod_lt _ (by omega)
      rw [toNat_digitChar h10]
      omega

theorem natDigits_length_le {n d : Nat} (hd : 1 ≤ d) (h : n < 10 ^ d) :
    (natDigits n).length ≤ d := by
  induction d generalizing n with
  | zero => omega
  | succ d ihd =>
    unfold natDigits
    split
    · simp
    · next hn =>
      have hd1 : 1 ≤ d := by
        by_contra hc
        have : d = 0 := by omega
        subst this
        simp at h
        omega
      have : n / 10 < 10 ^ d := by
        rw [pow_succ] at h
        omega
      have := ihd hd1 this
      simp only [List.length_append, List.length_singleton]
      omega

/-! Whitespace skipping. -/

theorem skipWs_cons_ws {c : Char} (h : isWsB c = true) (l : List Char) :
    skipWs (c :: l) = skipWs l := by
  simp [skipWs, h]

theorem skipWs_cons_not {c : Char} (h : isWsB c = false) (l : List Char) :
    skipWs (c :: l) = c :: l := by
  simp [skipWs, h]

theorem skipWs_replicate_space (n : Nat) (l : List Char) :
    skipWs (List.replicate n ' ' ++ l) = skipWs l := by
  induction n with
  | zero => rfl
  | succ n ih =>
    rw [List.replicate_succ, List.cons_append, skipWs_cons_ws (by decide)]
    exact ih

theorem skipWs_nlInd (n : Nat) (l : List Char) :
    skipWs (nlInd n ++ l) = skipWs l := by
  rw [nlInd, List.cons_append, skipWs_cons_ws (by decide)]
  exact skipWs_replicate_space n l

theorem isDigit_not_ws {c : Char} (h : c.isDigit = true) : isWsB c = false := by
  obtain ⟨h1, h2⟩ := isDigit_toNat h
  simp only [isWsB, Bool.or_eq_false_iff, beq_eq_false_iff_ne]
  refine ⟨⟨⟨?_, ?_⟩, ?_⟩, ?_⟩ <;> exact char_ne_of_toNat (by simp; omega)

/-! Digit runs and numbers. -/

theorem takeDigits_of_digits {ds rest : List Char} (hds : ∀ c ∈ ds, c.isDigit = true)
    (hrest : ∀ c ∈ rest.head?, c.isDigit = false) :
    takeDigits (ds ++ rest) = (ds, rest) := by
  induction ds with
  | nil =>
    cases rest with
    | nil => rfl
    | cons c cs =>
      have := hrest c rfl
      simp [takeDigits, this]
  | cons c cs ih =>
    have hc := hds c (by simp)
    simp only [List.cons_append, takeDigits, hc, if_true, List.append_eq]
    rw [ih (fun x hx => hds x (by simp [hx]))]

theorem digitsVal_replicate_zero (z : Nat) (ds : List Char) :
    digitsVal (List.replicate z '0' ++ ds) = digitsVal ds := by
  induction z with
  | zero => rfl
  | succ z ih =>
    rw [List.replicate_succ, List.cons_append]
    exact ih

theorem fracDigits_length {k d : Nat} (hd : 1 ≤ d) (h : k < 10 ^ d) :
    (fracDigits k d).length = d := by
  have := natDigits_length_le hd h
  simp only [fracDigits, List.length_append, List.length_replicate]
  omega

theorem fracDigits_digits (k d : Nat) : ∀ c ∈ fracDigits k d, c.isDigit = true := by
  intro c hc
  rw [fracDigits, List.mem_append] at hc
  rcases hc with hc | hc
  · rw [List.eq_of_mem_replicate hc]
    decide
  · exact natDigits_digits k c hc

theorem digitsVal_fracDigits (k d : Nat) : digitsVal (fracDigits k d) = k := by
  rw [fracDigits, digitsVal_replicate_zero, digitsVal_natDigits]

theorem numStop_head_not_digit {rest : List Char} (h : numStop rest) :
    ∀ c ∈ rest.head?, c.isDigit = false := by
  intro c hc
  cases rest with
  | nil => simp at hc
  | cons r rs =>
    simp only [List.head?_cons, Option.mem_some_iff] at hc
    subst hc
    exact h.1

theorem parseNum_nat (neg : Bool) (n : Nat) {rest : List Char} (h : numStop rest) :
    parseNum neg (natDigits n ++ rest) =
      some (.int (if neg then -(n : Int) else (n : Int)), rest) := by
  simp only [parseNum, takeDigits_of_digits (natDigits_digits n) (numStop_head_not_digit h)]
  rw [if_neg (natDigits_ne_nil n)]
  split
  · exact absurd rfl h.2
  · rw [digitsVal_natDigits]

theorem parseNum_frac (neg : Bool) (i k d : Nat) (hd : 1 ≤ d) (hk : k < 10 ^ d)
    {rest : List Char} (h : numStop rest) :
    parseNum neg (natDigits i ++ '.' :: (fracDigits k d ++ rest)) =
      some
        (.float
          (if neg then -((i * 10 ^ d + k : Nat) : Int) else ((i * 10 ^ d + k : Nat) : Int)) d,
        rest) := by
  have hhead : ∀ c ∈ ('.' :: (fracDigits k d ++ rest)).head?, c.isDigit = false := by
    intro c hc
    simp only [List.head?_cons, Option.mem_some_iff] at hc
    subst hc
    decide
  simp only [parseNum, takeDigits_of_digits (natDigits_digits i) hhead]
  rw [if_neg (natDigits_ne_nil i)]
  have hfrac :
      takeDigits (fracDigits k d ++ rest) = (fracDigits k d, rest) :=
    takeDigits_of_digits (fracDigits_digits k d) (numStop_head_not_digit h)
  simp only [hfrac]
  have hne : fracDigits k d ≠ [] := by
    intro e
    have := fracDigits_length hd hk
    rw [e] at this
    simp at this
    omega
  rw [if_neg hne, digitsVal_natDigits, digitsVal_fracDigits, fracDigits_length hd hk]

/-! String escape round trip. -/

theorem hexVal_hexDig {k : Nat} (h : k < 16) : hexVal (hexDig k) = some k := by
  interval_cases k <;> decide

theorem hexQuad (n : Nat) (h : n < 65536) :
    4096 * (n / 4096 % 16) + 256 * (n / 256 % 16) + 16 * (n / 16 % 16) + n % 16 = n := by
  omega

theorem parseU_hex4 (n : Nat) (hn : n < 65536) (tail : List Char) :
    parseU (hex4 n ++ tail) = some (n, tail) := by
  have d1 : n / 4096 % 16 < 16 := Nat.mod_lt _ (by omega)
  have d2 : n / 256 % 16 < 16 := Nat.mod_lt _ (by omega)
  have d3 : n / 16 % 16 < 16 := Nat.mod_lt _ (by omega)
  have d4 : n % 16 < 16 := Nat.mod_lt _ (by omega)
  simp [hex4, parseU, hexVal_hexDig d1, hexVal_hexDig d2, hexVal_hexDig d3,
    hexVal_hexDig d4, hexQuad n hn]

theorem escChar_quote (f : Nat) (rest : List Char) :
    parseStrBody (f + 1) (escChar '"' ++ rest) =
      match parseStrBody f rest with
      | some (s, r) => some ('"' :: s, r)
      | none => none := by
  rw [show escChar '"' = ['\\', '"'] from rfl]
  simp [parseStrBody, escTable]

theorem escChar_backslash (f : Nat) (rest : List Char) :
    parseStrBody (f + 1) (escChar '\\' ++ rest) =
      match parseStrBody f rest with
      | some (s, r) => some ('\\' :: s, r)
      | none => none := by
  rw [show escChar '\\' = ['\\', '\\'] from rfl]
  simp [parseStrBody, escTable]

theorem escChar_nl (f : Nat) (rest : List Char) :
    parseStrBody (f + 1) (escChar '\n' ++ rest) =
      match parseStrBody f rest with
      | some (s, r) => some ('\n' :: s, r)
      | none => none := by
  rw [show escChar '\n' = ['\\', 'n'] from rfl]
  simp [parseStrBody, escTable]

theorem escChar_tab (f : Nat) (rest : List Char) :
    parseStrBody (f + 1) (escChar '\t' ++ rest) =
      match parseStrBody f rest with
      | some (s, r) => some ('\t' :: s, r)
      | none => none := by
  rw [show escChar '\t' = ['\\', 't'] from rfl]
  simp [parseStrBody, escTable]

theorem escChar_cr (f : Nat) (rest : List Char) :
    parseStrBody (f + 1) (escChar '\r' ++ rest) =
      match parseStrBody f rest with
      | some (s, r) => some ('\r' :: s, r)
      | none => none := by
  rw [show escChar '\r' = ['\\', 'r'] from rfl]
  simp [parseStrBody, escTable]

theorem escChar_bs (f : Nat) (rest : List Char) :
    parseStrBody (f + 1) (escChar (Char.ofNat 8) ++ rest) =
      match parseStrBody f rest with
      | some (s, r) => some (Char.ofNat 8 :: s, r)
      | none => none := by
  rw [show escChar (Char.ofNat 8) = ['\\', 'b'] from rfl]
  simp [parseStrBody, escTable]

theorem escChar_ff (f : Nat) (rest : List Char) :
    parseStrBody (f + 1) (escChar (Char.ofNat 12) ++ rest) =
      match parseStrBody f rest with
      | some (s, r) => some (Char.ofNat 12 :: s, r)
      | none => none := by
  rw [show escChar (Char.ofNat 12) = ['\\', 'f'] from rfl]
  simp [parseStrBody, escTable]

theorem escChar_plain (f : Nat) (c : Char) (rest : List Char)
    (h1 : ¬(c = '"')) (h2 : ¬(c = '\\')) (h8 : 32 ≤ c.toNat ∧ c.toNat ≤ 126) :
    parseStrBody (f + 1) (escChar c ++ rest) =
      match parseStrBody f rest with
      | some (s, r) => some (c :: s, r)
      | none => none := by
  have h3 : ¬(c = '\n') := char_ne_of_toNat (by simp; omega)
  have h4 : ¬(c = '\t') := char_ne_of_toNat (by simp; omega)
  have h5 : ¬(c = '\r') := char_ne_of_toNat (by simp; omega)
  have h6 : ¬(c = Char.ofNat 8) := char_ne_of_toNat (by simp; omega)
  have h7 : ¬(c = Char.ofNat 12) := char_ne_of_toNat (by simp; omega)
  rw [escChar, if_neg h1, if_neg h2, if_neg h3, if_neg h4, if_neg h5, if_neg h6,
    if_neg h7, if_pos h8]
  have hlt : ¬(c.toNat < 32) := by omega
  simp [parseStrBody, h1, h2, hlt]

theorem escChar_bmp (f : Nat) (c : Char) (rest : List Char)
    (h1 : ¬(c = '"')) (h2 : ¬(c = '\\')) (h3 : ¬(c = '\n')) (h4 : ¬(c = '\t'))
    (h5 : ¬(c = '\r')) (h6 : ¬(c = Char.ofNat 8)) (h7 : ¬(c = Char.ofNat 12))
    (h8 : ¬(32 ≤ c.toNat ∧ c.toNat ≤ 126)) (h9 : c.toNat < 65536) :
    parseStrBody (f + 1) (escChar c ++ rest) =
      match parseStrBody f rest with
      | some (s, r) => some (c :: s, r)
      | none => none := by
  rw [escChar, if_neg h1, if_neg h2, if_neg h3, if_neg h4, if_neg h5, if_neg h6,
    if_neg h7, if_neg h8, if_pos h9]
  have hvalid : c.toNat < 55296 ∨ 57343 < c.toNat := by
    rcases char_valid_range c with h | ⟨ha, _⟩
    · exact Or.inl h
    · exact Or.inr ha
  simp [parseStrBody, parseU_hex4 c.toNat h9, hvalid, Char.ofNat_toNat]

theorem parse_surrogates (f q r : Nat) (hq : q < 1024) (hr : r < 1024)
    (rest : List Char) :
    parseStrBody (f + 1)
      (('\\' :: 'u' :: hex4 (55296 + q)) ++ (('\\' :: 'u' :: hex4 (56320 + r)) ++ rest)) =
      match parseStrBody f rest with
      | some (s, t) => some (Char.ofNat (65536 + 1024 * q + r) :: s, t)
      | none => none := by
  have hn1 : 55296 + q < 65536 := by omega
  have hn2 : 56320 + r < 65536 := by omega
  have hA : ¬(55296 + q < 55296) := by omega
  have hB : ¬(57343 < 55296 + q) := by omega
  have hlow : 55296 + q < 56320 := by omega
  have hm1 : 56320 ≤ 56320 + r := by omega
  have hm2 : 56320 + r < 57344 := by omega
  simp only [List.cons_append, List.append_assoc]
  simp [parseStrBody, parseU_hex4 _ hn1, parseU_hex4 _ hn2, hA, hB, hlow, hm1, hm2]

theorem escChar_astral (f : Nat) (c : Char) (rest : List Char)
    (h9 : ¬(c.toNat < 65536)) :
    parseStrBody (f + 1) (escChar c ++ rest) =
      match parseStrBody f rest with
      | some (s, r) => some (c :: s, r)
      | none => none := by
  have h1 : ¬(c = '"') := char_ne_of_toNat (by simp; omega)
  have h2 : ¬(c = '\\') := char_ne_of_toNat (by simp; omega)
  have h3 : ¬(c = '\n') := char_ne_of_toNat (by simp; omega)
  have h4 : ¬(c = '\t') := char_ne_of_toNat (by simp; omega)
  have h5 : ¬(c = '\r') := char_ne_of_toNat (by simp; omega)
  have h6 : ¬(c = Char.ofNat 8) := char_ne_of_toNat (by simp; omega)
  have h7 : ¬(c = Char.ofNat 12) := char_ne_of_toNat (by simp; omega)
  have h8 : ¬(32 ≤ c.toNat ∧ c.toNat ≤ 126) := by omega
  rw [escChar, if_neg h1, if_neg h2, if_neg h3, if_neg h4, if_neg h5, if_neg h6,
    if_neg h7, if_neg h8, if_neg h9]
  have hup : c.toNat < 1114112 := by
    rcases char_valid_range c with h | ⟨_, hb⟩
    · omega
    · exact hb
  have hq : (c.toNat - 65536) / 1024 < 1024 := by omega
  have hr : (c.toNat - 65536) % 1024 < 1024 := Nat.mod_lt _ (by omega)
  have hchar : 65536 + 1024 * ((c.toNat - 65536) / 1024) + (c.toNat - 65536) % 1024 =
      c.toNat := by omega
  rw [List.append_assoc, parse_surrogates f _ _ hq hr rest, hchar, Char.ofNat_toNat]

theorem parseStrBody_escChar (f : Nat) (c : Char) (rest : List Char) :
    parseStrBody (f + 1) (escChar c ++ rest) =
      match parseStrBody f rest with
      | some (s, r) => some (c :: s, r)
      | none => none := by
  by_cases h1 : c = '"'
  · subst h1; exact escChar_quote f rest
  by_cases h2 : c = '\\'
  · subst h2; exact escChar_backslash f rest
  by_cases h9 : c.toNat < 65536
  · by_cases h8 : 32 ≤ c.toNat ∧ c.toNat ≤ 126
    · exact escChar_plain f c rest h1 h2 h8
    by_cases h3 : c = '\n'
    · subst h3; exact escChar_nl f rest
    by_cases h4 : c = '\t'
    · subst h4; exact escChar_tab f rest
    by_cases h5 : c = '\r'
    · subst h5; exact escChar_cr f rest
    by_cases h6 : c = Char.ofNat 8
    · subst h6; exact escChar_bs f rest
    by_cases h7 : c = Char.ofNat 12
    · subst h7; exact escChar_ff f rest
    exact escChar_bmp f c rest h1 h2 h3 h4 h5 h6 h7 h8 h9
  · exact escChar_astral f c rest h9

theorem parseStrBody_escStr (s : List Char) (rest : List Char) :
    ∀ f, s.length + 1 ≤ f → parseStrBody f (escStr s ++ '"' :: rest) = some (s, rest) := by
  induction s with
  | nil =>
    intro f hf
    cases f with
    | zero => omega
    | succ f => simp [escStr, parseStrBody]
  | cons c cs ih =>
    intro f hf
    cases f with
    | zero => omega
    | succ f =>
      rw [escStr, List.append_assoc, parseStrBody_escChar,
        ih f (by simp at hf; omega)]

/-! Serializer facts under well-formedness. -/

mutual

theorem ser_ok (v : PyVal) (ind : Nat) (h : wfB v = true) : (ser v ind).2 = true := by
  cases v with
  | null => rfl
  | bool b => cases b <;> rfl
  | int n => rfl
  | float m d => rfl
  | str s => rfl
  | bad s => simp [wfB] at h
  | arr xs =>
    cases xs with
    | nil => rfl
    | cons x xs =>
      have hl : wfL (x :: xs) = true := by simpa [wfB] using h
      simp [ser, serItems_ok (x :: xs) (ind + 2) hl]
  | obj kvs =>
    cases kvs with
    | nil => rfl
    | cons kv kvs =>
      have hm : wfM (kv :: kvs) = true := by simpa [wfB] using h
      simp [ser, serMembers_ok (kv :: kvs) (ind + 2) hm]

theorem serItems_ok (xs : List PyVal) (ind : Nat) (h : wfL xs = true) :
    (serItems xs ind).2 = true := by
  cases xs with
  | nil => rfl
  | cons x xs =>
    rw [wfL, Bool.and_eq_true] at h
    have hx := ser_ok x ind h.1
    cases xs with
    | nil => simp [serItems, hx]
    | cons y ys =>
      simp [serItems, hx, serItems_ok (y :: ys) ind h.2]

theorem serMembers_ok (kvs : List (String × PyVal)) (ind : Nat) (h : wfM kvs = true) :
    (serMembers kvs ind).2 = true := by
  cases kvs with
  | nil => rfl
  | cons kv kvs =>
    obtain ⟨k, v⟩ := kv
    rw [wfM, Bool.and_eq_true, Bool.and_eq_true] at h
    have hv := ser_ok v ind h.1.2
    cases kvs with
    | nil => simp [serMembers, hv]
    | cons kv2 kvs2 =>
      simp [serMembers, hv, serMembers_ok (kv2 :: kvs2) ind h.2]

end

theorem ser_arr_shape (x : PyVal) (xs : List PyVal) (ind : Nat)
    (h : wfL (x :: xs) = true) :
    (ser (.arr (x :: xs)) ind).1 =
      '[' :: (serItems (x :: xs) (ind + 2)).1 ++ nlInd ind ++ [']'] := by
  simp [ser, serItems_ok (x :: xs) (ind + 2) h]

theorem ser_obj_shape (kv : String × PyVal) (kvs : List (String × PyVal)) (ind : Nat)
    (h : wfM (kv :: kvs) = true) :
    (ser (.obj (kv :: kvs)) ind).1 =
      '{' :: (serMembers (kv :: kvs) (ind + 2)).1 ++ nlInd ind ++ ['}'] := by
  simp [ser, serMembers_ok (kv :: kvs) (ind + 2) h]

theorem serItems_single (x : PyVal) (ind : Nat) (h : (ser x ind).2 = true) :
    serItems [x] ind = (nlInd ind ++ (ser x ind).1, true) := by
  simp [serItems, h]

theorem serItems_cons2 (x y : PyVal) (ys : List PyVal) (ind : Nat)
    (h : (ser x ind).2 = true) :
    serItems (x :: y :: ys) ind =
      (nlInd ind ++ (ser x ind).1 ++ ',' :: (serItems (y :: ys) ind).1,
        (serItems (y :: ys) ind).2) := by
  simp [serItems, h]

theorem serMembers_single (k : String) (v : PyVal) (ind : Nat)
    (h : (ser v ind).2 = true) :
    serMembers [(k, v)] ind =
      (nlInd ind ++ serStrC k.data ++ ':' :: ' ' :: (ser v ind).1, true) := by
  simp [serMembers, h]

theorem serMembers_cons2 (k : String) (v : PyVal) (kv2 : String × PyVal)
    (kvs2 : List (String × PyVal)) (ind : Nat) (h : (ser v ind).2 = true) :
    serMembers ((k, v) :: kv2 :: kvs2) ind =
      (nlInd ind ++ serStrC k.data ++ ':' :: ' ' :: (ser v ind).1 ++
        ',' :: (serMembers (kv2 :: kvs2) ind).1, (serMembers (kv2 :: kvs2) ind).2) := by
  simp [serMembers, h]

theorem natDigits_head (n : Nat) :
    ∃ c cs, natDigits n = c :: cs ∧ c.isDigit = true := by
  cases hd : natDigits n with
  | nil => exact absurd hd (natDigits_ne_nil n)
  | cons c cs =>
    refine ⟨c, cs, rfl, ?_⟩
    exact natDigits_digits n c (by rw [hd]; simp)

theorem ser_head (v : PyVal) (ind : Nat) (h : wfB v = true) :
    ∃ c cs, (ser v ind).1 = c :: cs ∧ isWsB c = false ∧ c ≠ '}' ∧ c ≠ ']' := by
  cases v with
  | null => exact ⟨'n', _, rfl, by decide, by decide, by decide⟩
  | bool b =>
    cases b
    · exact ⟨'f', _, rfl, by decide, by decide, by decide⟩
    · exact ⟨'t', _, rfl, by decide, by decide, by decide⟩
  | int n =>
    show ∃ c cs, serInt n = c :: cs ∧ _
    rw [serInt]
    by_cases hn : n < 0
    · rw [if_pos hn]
      exact ⟨'-', _, rfl, by decide, by decide, by decide⟩
    · rw [if_neg hn]
      obtain ⟨c, cs, hcs, hdig⟩ := natDigits_head n.toNat
      obtain ⟨hl, hu⟩ := isDigit_toNat hdig
      exact ⟨c, cs, hcs, isDigit_not_ws hdig, char_ne_of_toNat (by simp; omega),
        char_ne_of_toNat (by simp; omega)⟩
  | float m d =>
    show ∃ c cs, serFloat m d = c :: cs ∧ _
    rw [serFloat]
    by_cases hm : m < 0
    · rw [if_pos hm]
      exact ⟨'-', _, rfl, by decide, by decide, by decide⟩
    · rw [if_neg hm]
      obtain ⟨c, cs, hcs, hdig⟩ := natDigits_head (m.natAbs / 10 ^ d)
      obtain ⟨hl, hu⟩ := isDigit_toNat hdig
      rw [List.nil_append, hcs]
      exact ⟨c, _, rfl, isDigit_not_ws hdig, char_ne_of_toNat (by simp; omega),
        char_ne_of_toNat (by simp; omega)⟩
  | str s => exact ⟨'"', _, rfl, by decide, by decide, by decide⟩
  | bad s => simp [wfB] at h
  | arr xs =>
    cases xs with
    | nil => exact ⟨'[', _, rfl, by decide, by decide, by decide⟩
    | cons x xs =>
      rw [ser_arr_shape x xs ind (by simpa [wfB] using h)]
      exact ⟨'[', _, rfl, by decide, by decide, by decide⟩
  | obj kvs =>
    cases kvs with
    | nil => exact ⟨'{', _, rfl, by decide, by decide, by decide⟩
    | cons kv kvs =>
      rw [ser_obj_shape kv kvs ind (by simpa [wfB] using h)]
      exact ⟨'{', _, rfl, by decide, by decide, by decide⟩

/-! Value-level parser evaluation lemmas. -/

theorem escChar_ne_nil (c : Char) : escChar c ≠ [] := by
  rw [escChar]
  split_ifs <;> simp [hex4]

theorem escStr_length_ge (s : List Char) : s.length ≤ (escStr s).length := by
  induction s with
  | nil => simp [escStr]
  | cons c cs ih =>
    rw [escStr, List.length_append, List.length_cons]
    have : 1 ≤ (escChar c).length := by
      cases he : escChar c with
      | nil => exact absurd he (escChar_ne_nil c)
      | cons a as => simp
    omega

theorem parseVal_succ (f : Nat) (cs : List Char) :
    parseVal (f + 1) cs = parseValGo f (skipWs cs) := by
  simp [parseVal]

theorem parseMembers_succ (f : Nat) (cs : List Char) :
    parseMembers (f + 1) cs = parseMembersGo f (skipWs cs) := by
  simp [parseMembers]

theorem parseItems_succ (f : Nat) (cs : List Char) :
    parseItems (f + 1) cs = parseItemsGo f cs := by
  simp [parseItems]

theorem parseVal_ws {c : Char} (h : isWsB c = true) (f : Nat) (cs : List Char) :
    parseVal f (c :: cs) = parseVal f cs := by
  cases f with
  | zero => simp [parseVal]
  | succ f => rw [parseVal_succ, parseVal_succ, skipWs_cons_ws h]

theorem parseVal_nlInd (j : Nat) (f : Nat) (cs : List Char) :
    parseVal f (nlInd j ++ cs) = parseVal f cs := by
  cases f with
  | zero => simp [parseVal]
  | succ f => rw [parseVal_succ, parseVal_succ, skipWs_nlInd]

theorem parseValGo_digit {c : Char} (h : c.isDigit = true) (f : Nat) (cs : List Char) :
    parseValGo f (c :: cs) = parseNum false (c :: cs) := by
  obtain ⟨hl, hu⟩ := isDigit_toNat h
  have n1 : ¬(c = '{') := char_ne_of_toNat (by simp; omega)
  have n2 : ¬(c = '[') := char_ne_of_toNat (by simp; omega)
  have n3 : ¬(c = '"') := char_ne_of_toNat (by simp; omega)
  have n4 : ¬(c = 't') := char_ne_of_toNat (by simp; omega)
  have n5 : ¬(c = 'f') := char_ne_of_toNat (by simp; omega)
  have n6 : ¬(c = 'n') := char_ne_of_toNat (by simp; omega)
  have n7 : ¬(c = '-') := char_ne_of_toNat (by simp; omega)
  simp only [parseValGo]
  rw [if_neg n1, if_neg n2, if_neg n3, if_neg n4, if_neg n5, if_neg n6, if_neg n7,
    if_pos h]

theorem parseValGo_serInt (f : Nat) (n : Int) {rest : List Char} (h : numStop rest) :
    parseValGo f (serInt n ++ rest) = some (.int n, rest) := by
  rw [serInt]
  by_cases hn : n < 0
  · rw [if_pos hn, List.cons_append]
    have hgo : parseValGo f ('-' :: (natDigits n.natAbs ++ rest)) =
        parseNum true (natDigits n.natAbs ++ rest) := by
      simp [parseValGo]
    rw [hgo, parseNum_nat true n.natAbs h, if_pos rfl,
      show -((n.natAbs : Nat) : Int) = n from by omega]
  · rw [if_neg hn]
    obtain ⟨c, cs, hcs, hdig⟩ := natDigits_head n.toNat
    rw [hcs, List.cons_append, parseValGo_digit hdig, ← List.cons_append, ← hcs,
      parseNum_nat false n.toNat h, if_neg (by simp),
      show ((n.toNat : Nat) : Int) = n from by omega]

theorem parseValGo_serFloat (f : Nat) (m : Int) (d : Nat) (hd : 1 ≤ d)
    {rest : List Char} (h : numStop rest) :
    parseValGo f (serFloat m d ++ rest) = some (.float m d, rest) := by
  have hfrac : m.natAbs % 10 ^ d < 10 ^ d := Nat.mod_lt _ (by positivity)
  have hsplit : m.natAbs / 10 ^ d * 10 ^ d + m.natAbs % 10 ^ d = m.natAbs :=
    Nat.div_add_mod' m.natAbs (10 ^ d)
  rw [serFloat]
  by_cases hm : m < 0
  · rw [if_pos hm]
    simp only [List.cons_append, List.append_assoc, List.nil_append]
    have hgo : parseValGo f
        ('-' :: (natDigits (m.natAbs / 10 ^ d) ++ ('.' :: (fracDigits (m.natAbs % 10 ^ d) d ++ rest)))) =
        parseNum true (natDigits (m.natAbs / 10 ^ d) ++ ('.' :: (fracDigits (m.natAbs % 10 ^ d) d ++ rest))) := by
      simp [parseValGo]
    rw [hgo, parseNum_frac true _ _ d hd hfrac h, if_pos rfl,
      show -(((m.natAbs / 10 ^ d * 10 ^ d + m.natAbs % 10 ^ d : Nat)) : Int) = m from by
        rw [hsplit]; omega]
  · rw [if_neg hm]
    simp only [List.nil_append, List.append_assoc, List.cons_append]
    obtain ⟨c, cs, hcs, hdig⟩ := natDigits_head (m.natAbs / 10 ^ d)
    rw [hcs, List.cons_append, parseValGo_digit hdig, ← List.cons_append, ← hcs,
      parseNum_frac false _ _ d hd hfrac h, if_neg (by simp),
      show (((m.natAbs / 10 ^ d * 10 ^ d + m.natAbs % 10 ^ d : Nat)) : Int) = m from by
        rw [hsplit]; omega]

theorem parseValGo_serStr (f : Nat) (s : String) (rest : List Char) :
    parseValGo f (serStrC s.data ++ rest) = some (.str s, rest) := by
  have hnorm : serStrC s.data ++ rest = '"' :: (escStr s.data ++ '"' :: rest) := by
    rw [serStrC]
    simp
  rw [hnorm]
  have hgo : parseValGo f ('"' :: (escStr s.data ++ '"' :: rest)) =
      match parseStrBody ((escStr s.data ++ '"' :: rest).length + 1)
          (escStr s.data ++ '"' :: rest) with
      | some (t, r) => some (.str (String.mk t), r)
      | none => none := by
    simp [parseValGo]
  rw [hgo]
  have hlen := escStr_length_ge s.data
  cases hfl : (escStr s.data ++ '"' :: rest).length + 1 with
  | zero => omega
  | succ F =>
    have hF : s.data.length + 1 ≤ F + 1 := by
      rw [List.length_append, List.length_cons] at hfl
      omega
    rw [parseStrBody_escStr s.data rest (F + 1) hF]

/-! Round trip of whole documents. -/

theorem sz_pos (v : PyVal) : 1 ≤ sz v := by
  cases v <;> simp [sz]

theorem string_mk_data (s : String) : String.mk s.data = s := by
  cases s
  rfl

theorem numStop_nlInd (j : Nat) (X : List Char) : numStop (nlInd j ++ X) := by
  rw [nlInd, List.cons_append]
  exact ⟨by decide, by decide⟩

theorem numStop_comma (X : List Char) : numStop (',' :: X) :=
  ⟨by decide, by decide⟩

theorem key_fuel (s : String) (Z : List Char) :
    s.data.length + 1 ≤ (escStr s.data ++ '"' :: Z).length + 1 := by
  have := escStr_length_ge s.data
  rw [List.length_append, List.length_cons]
  omega

theorem parseStrBody_key (k : List Char) (Z : List Char) :
    parseStrBody ((escStr k ++ '"' :: Z).length + 1) (escStr k ++ '"' :: Z) = some (k, Z) := by
  refine parseStrBody_escStr k Z _ ?_
  have := escStr_length_ge k
  rw [List.length_append, List.length_cons]
  omega

theorem rt_joint : ∀ f : Nat,
    (∀ v ind rest, wfB v = true → sz v ≤ f → numStop rest →
      parseVal f ((ser v ind).1 ++ rest) = some (v, rest)) ∧
    (∀ kv kvs ind j rest, wfM (kv :: kvs) = true → szM (kv :: kvs) ≤ f →
      parseMembers f ((serMembers (kv :: kvs) ind).1 ++ (nlInd j ++ '}' :: rest)) =
        some (kv :: kvs, rest)) ∧
    (∀ x xs ind j rest, wfL (x :: xs) = true → szL (x :: xs) ≤ f →
      parseItems f ((serItems (x :: xs) ind).1 ++ (nlInd j ++ ']' :: rest)) =
        some (x :: xs, rest)) := by
  intro f
  induction f with
  | zero =>
    refine ⟨?_, ?_, ?_⟩
    · intro v ind rest hwf hsz hstop
      have := sz_pos v
      omega
    · intro kv kvs ind j rest hwf hsz
      obtain ⟨k, v⟩ := kv
      rw [szM] at hsz
      have := sz_pos v
      omega
    · intro x xs ind j rest hwf hsz
      rw [szL] at hsz
      have := sz_pos x
      omega
  | succ f ih =>
    obtain ⟨ihV, ihM, ihI⟩ := ih
    refine ⟨?_, ?_, ?_⟩
    · intro v ind rest hwf hsz hstop
      rw [parseVal_succ]
      obtain ⟨c, cs, hser, hws, hbr, hbk⟩ := ser_head v ind hwf
      rw [hser, List.cons_append, skipWs_cons_not hws, ← List.cons_append, ← hser]
      cases v with
      | null => simp [ser, parseValGo, expectLit]
      | bool b => cases b <;> simp [ser, parseValGo, expectLit]
      | int n =>
        rw [show (ser (.int n) ind).1 = serInt n from rfl]
        exact parseValGo_serInt f n hstop
      | float m d =>
        have hd : 1 ≤ d := by simpa [wfB] using hwf
        rw [show (ser (.float m d) ind).1 = serFloat m d from rfl]
        exact parseValGo_serFloat f m d hd hstop
      | str s =>
        rw [show (ser (.str s) ind).1 = serStrC s.data from rfl]
        exact parseValGo_serStr f s rest
      | bad s => simp [wfB] at hwf
      | arr xs =>
        cases xs with
        | nil => simp [ser, parseValGo, skipWs, isWsB]
        | cons x xs =>
          have hl : wfL (x :: xs) = true := by simpa [wfB] using hwf
          rw [ser_arr_shape x xs ind hl]
          simp only [List.cons_append, List.append_assoc, List.nil_append]
          have hgo : ∀ X, parseValGo f ('[' :: X) =
              (match skipWs X with
               | ']' :: r => some (.arr [], r)
               | _ =>
                 match parseItems f X with
                 | some (ys, r) => some (.arr ys, r)
                 | none => none) := by
            intro X
            simp [parseValGo]
          rw [hgo]
          have hwx : wfB x = true := by
            rw [wfL, Bool.and_eq_true] at hl
            exact hl.1
          obtain ⟨c0, cs0, hser0, hws0, hbr0, hbk0⟩ := ser_head x (ind + 2) hwx
          have hokx : (ser x (ind + 2)).2 = true := ser_ok x (ind + 2) hwx
          have hskip : ∃ Z,
              skipWs ((serItems (x :: xs) (ind + 2)).1 ++ (nlInd ind ++ ']' :: rest)) =
                c0 :: Z := by
            cases xs with
            | nil =>
              rw [serItems_single x (ind + 2) hokx]
              simp only [List.append_assoc]
              rw [skipWs_nlInd, hser0, List.cons_append, skipWs_cons_not hws0]
              exact ⟨_, rfl⟩
            | cons y ys =>
              rw [serItems_cons2 x y ys (ind + 2) hokx]
              simp only [List.append_assoc, List.cons_append]
              rw [skipWs_nlInd, hser0, List.cons_append, skipWs_cons_not hws0]
              exact ⟨_, rfl⟩
          obtain ⟨Z, hZ⟩ := hskip
          rw [hZ]
          have hfuel : szL (x :: xs) ≤ f := by
            rw [sz] at hsz
            omega
          have hitems := ihI x xs (ind + 2) ind rest hl hfuel
          split
          · next r heq =>
            injection heq with h1 h2
            exact absurd h1 hbk0
          · rw [hitems]
      | obj kvs =>
        cases kvs with
        | nil => simp [ser, parseValGo, skipWs, isWsB]
        | cons kv kvs =>
          obtain ⟨k, v⟩ := kv
          have hm : wfM ((k, v) :: kvs) = true := by simpa [wfB] using hwf
          rw [ser_obj_shape (k, v) kvs ind hm]
          simp only [List.cons_append, List.append_assoc, List.nil_append]
          have hgo : ∀ X, parseValGo f ('{' :: X) =
              (match skipWs X with
               | '}' :: r => some (.obj [], r)
               | _ =>
                 match parseMembers f X with
                 | some (ms, r) => some (.obj ms, r)
                 | none => none) := by
            intro X
            simp [parseValGo]
          rw [hgo]
          have hwv : wfB v = true := by
            rw [wfM, Bool.and_eq_true, Bool.and_eq_true] at hm
            exact hm.1.2
          have hokv : (ser v (ind + 2)).2 = true := ser_ok v (ind + 2) hwv
          have hskip : ∃ Z,
              skipWs ((serMembers ((k, v) :: kvs) (ind + 2)).1 ++ (nlInd ind ++ '}' :: rest)) =
                '"' :: Z := by
            cases kvs with
            | nil =>
              rw [serMembers_single k v (ind + 2) hokv]
              simp only [serStrC, List.append_assoc, List.cons_append, List.nil_append]
              rw [skipWs_nlInd, skipWs_cons_not (by decide)]
              exact ⟨_, rfl⟩
            | cons kv2 kvs2 =>
              rw [serMembers_cons2 k v kv2 kvs2 (ind + 2) hokv]
              simp only [serStrC, List.append_assoc, List.cons_append, List.nil_append]
              rw [skipWs_nlInd, skipWs_cons_not (by decide)]
              exact ⟨_, rfl⟩
          obtain ⟨Z, hZ⟩ := hskip
          rw [hZ]
          have hfuel : szM ((k, v) :: kvs) ≤ f := by
            rw [sz] at hsz
            omega
          have hmem := ihM (k, v) kvs (ind + 2) ind rest hm hfuel
          split
          · next r heq =>
            injection heq with h1 h2
            exact absurd h1 (by decide)
          · rw [hmem]
    · intro kv kvs ind j rest hwf hsz
      obtain ⟨k, v⟩ := kv
      have hparts := hwf
      rw [wfM, Bool.and_eq_true, Bool.and_eq_true] at hparts
      have hwv : wfB v = true := hparts.1.2
      have hwrest : wfM kvs = true := hparts.2
      have hokv : (ser v ind).2 = true := ser_ok v ind hwv
      rw [parseMembers_succ]
      have hgo : ∀ B, parseMembersGo f ('"' :: B) =
          (match parseStrBody (B.length + 1) B with
           | some (k2, cs2) =>
             (match skipWs cs2 with
              | ':' :: cs3 =>
                (match parseVal f cs3 with
                 | some (v2, cs4) =>
                   (match skipWs cs4 with
                    | ',' :: cs5 =>
                      (match parseMembers f cs5 with
                       | some (ms, r) => some ((String.mk k2, v2) :: ms, r)
                       | none => none)
                    | '}' :: cs5 => some ([(String.mk k2, v2)], cs5)
                    | _ => none)
                 | none => none)
              | _ => none)
           | none => none) := by
        intro B
        simp [parseMembersGo]
      have hcolon : ∀ l : List Char, skipWs (':' :: l) = ':' :: l :=
        fun l => skipWs_cons_not (by decide) l
      have hcomma : ∀ l : List Char, skipWs (',' :: l) = ',' :: l :=
        fun l => skipWs_cons_not (by decide) l
      have hbrace : ∀ l : List Char, skipWs ('}' :: l) = '}' :: l :=
        fun l => skipWs_cons_not (by decide) l
      have hspace : ∀ l : List Char, parseVal f (' ' :: l) = parseVal f l :=
        fun l => parseVal_ws (by decide) f l
      cases kvs with
      | nil =>
        rw [serMembers_single k v ind hokv]
        simp only [serStrC, List.append_assoc, List.cons_append, List.nil_append]
        rw [skipWs_nlInd, skipWs_cons_not (by decide), hgo]
        have hval := ihV v ind (nlInd j ++ '}' :: rest) hwv
          (by rw [szM] at hsz; omega) (numStop_nlInd j ('}' :: rest))
        simp only [parseStrBody_key, hcolon, hspace, hval, skipWs_nlInd, hbrace,
          string_mk_data]
      | cons kv2 kvs2 =>
        rw [serMembers_cons2 k v kv2 kvs2 ind hokv]
        simp only [serStrC, List.append_assoc, List.cons_append, List.nil_append]
        rw [skipWs_nlInd, skipWs_cons_not (by decide), hgo]
        have hval := ihV v ind
          (',' :: ((serMembers (kv2 :: kvs2) ind).1 ++ (nlInd j ++ '}' :: rest))) hwv
          (by rw [szM] at hsz; have := sz_pos v; omega) (numStop_comma _)
        have hmem2 := ihM kv2 kvs2 ind j rest hwrest
          (by rw [szM] at hsz; have := sz_pos v; omega)
        simp only [parseStrBody_key, hcolon, hspace, hval, hcomma, hmem2,
          string_mk_data]
    · intro x xs ind j rest hwf hsz
      have hparts := hwf
      rw [wfL, Bool.and_eq_true] at hparts
      have hwx : wfB x = true := hparts.1
      have hwrest : wfL xs = true := hparts.2
      have hokx : (ser x ind).2 = true := ser_ok x ind hwx
      rw [parseItems_succ]
      have hgo : ∀ X, parseItemsGo f X =
          (match parseVal f X with
           | some (v2, cs2) =>
             (match skipWs cs2 with
              | ',' :: cs3 =>
                (match parseItems f cs3 with
                 | some (ys, r) => some (v2 :: ys, r)
                 | none => none)
              | ']' :: cs3 => some ([v2], cs3)
              | _ => none)
           | none => none) := by
        intro X
        simp [parseItemsGo]
      rw [hgo]
      have hcomma : ∀ l : List Char, skipWs (',' :: l) = ',' :: l :=
        fun l => skipWs_cons_not (by decide) l
      have hbrack : ∀ l : List Char, skipWs (']' :: l) = ']' :: l :=
        fun l => skipWs_cons_not (by decide) l
      cases xs with
      | nil =>
        rw [serItems_single x ind hokx]
        simp only [List.append_assoc, List.cons_append, List.nil_append]
        have hval := ihV x ind (nlInd j ++ ']' :: rest) hwx
          (by rw [szL] at hsz; omega) (numStop_nlInd j (']' :: rest))
        simp only [parseVal_nlInd, hval, skipWs_nlInd, hbrack]
      | cons y ys =>
        rw [serItems_cons2 x y ys ind hokx]
        simp only [List.append_assoc, List.cons_append, List.nil_append]
        have hval := ihV x ind
          (',' :: ((serItems (y :: ys) ind).1 ++ (nlInd j ++ ']' :: rest))) hwx
          (by rw [szL] at hsz; have := sz_pos x; omega) (numStop_comma _)
        have hit2 := ihI y ys ind j rest hwrest
          (by rw [szL] at hsz; have := sz_pos x; omega)
        simp only [parseVal_nlInd, hval, hcomma, hit2]

mutual

theorem sz_le_len : ∀ (v : PyVal) (ind : Nat), wfB v = true → sz v ≤ (ser v ind).1.length
  | .null, ind, h => by simp [ser, sz]
  | .bool b, ind, h => by cases b <;> simp [ser, sz]
  | .int n, ind, h => by
    have h1 := List.length_pos.mpr (natDigits_ne_nil n.toNat)
    have h2 := List.length_pos.mpr (natDigits_ne_nil n.natAbs)
    rw [show (ser (.int n) ind).1 = serInt n from rfl, serInt, sz]
    split <;> simp <;> omega
  | .float m d, ind, h => by
    rw [show (ser (.float m d) ind).1 = serFloat m d from rfl, serFloat, sz]
    have := List.length_pos.mpr (natDigits_ne_nil (m.natAbs / 10 ^ d))
    split <;> simp <;> omega
  | .str s, ind, h => by
    rw [show (ser (.str s) ind).1 = serStrC s.data from rfl, serStrC, sz]
    simp
  | .bad s, ind, h => by simp [wfB] at h
  | .arr [], ind, h => by simp [ser, sz, szL]
  | .arr (x :: xs), ind, h => by
    have hl : wfL (x :: xs) = true := by simpa [wfB] using h
    rw [ser_arr_shape x xs ind hl, sz]
    have := szL_le_len x xs (ind + 2) hl
    simp [nlInd]
    omega
  | .obj [], ind, h => by simp [ser, sz, szM]
  | .obj (kv :: kvs), ind, h => by
    have hm : wfM (kv :: kvs) = true := by simpa [wfB] using h
    rw [ser_obj_shape kv kvs ind hm, sz]
    have := szM_le_len kv kvs (ind + 2) hm
    simp [nlInd]
    omega
termination_by v _ _ => sizeOf v
decreasing_by all_goals (simp_wf; omega)

theorem szL_le_len : ∀ (x : PyVal) (xs : List PyVal) (ind : Nat),
    wfL (x :: xs) = true → szL (x :: xs) ≤ (serItems (x :: xs) ind).1.length
  | x, [], ind, h => by
    have hparts := h
    rw [wfL, Bool.and_eq_true] at hparts
    have hx := sz_le_len x ind hparts.1
    rw [serItems_single x ind (ser_ok x ind hparts.1), szL, szL]
    simp [nlInd]
    omega
  | x, y :: ys, ind, h => by
    have hparts := h
    rw [wfL, Bool.and_eq_true] at hparts
    have hx := sz_le_len x ind hparts.1
    rw [serItems_cons2 x y ys ind (ser_ok x ind hparts.1), szL]
    have := szL_le_len y ys ind hparts.2
    simp [nlInd]
    omega
termination_by x xs _ _ => sizeOf x + sizeOf xs + 1
decreasing_by all_goals (simp_wf; omega)

theorem szM_le_len : ∀ (kv : String × PyVal) (kvs : List (String × PyVal)) (ind : Nat),
    wfM (kv :: kvs) = true → szM (kv :: kvs) ≤ (serMembers (kv :: kvs) ind).1.length
  | (k, v), [], ind, h => by
    have hparts := h
    rw [wfM, Bool.and_eq_true, Bool.and_eq_true] at hparts
    have hv := sz_le_len v ind hparts.1.2
    rw [serMembers_single k v ind (ser_ok v ind hparts.1.2), szM, szM]
    simp [nlInd, serStrC]
    omega
  | (k, v), kv2 :: kvs2, ind, h => by
    have hparts := h
    rw [wfM, Bool.and_eq_true, Bool.and_eq_true] at hparts
    have hv := sz_le_len v ind hparts.1.2
    rw [serMembers_cons2 k v kv2 kvs2 ind (ser_ok v ind hparts.1.2), szM]
    have := szM_le_len kv2 kvs2 ind hparts.2
    simp [nlInd, serStrC]
    omega
termination_by kv kvs _ _ => sizeOf kv + sizeOf kvs + 1
decreasing_by all_goals (simp_wf; omega)

end

/-- The round-trip law of this serializer and reader: a well-formed value
written by the `json.dump` model is recovered exactly by the `json.load`
model. -/
theorem json_roundtrip (v : PyVal) (h : wfB v = true) :
    json_loads (json_dumps v) = some v := by
  rw [json_loads, json_dumps]
  have hdata : (String.mk (ser v 0).1).data = (ser v 0).1 := rfl
  rw [hdata]
  have hlen := sz_le_len v 0 h
  have hrt := (rt_joint ((ser v 0).1.length + 1)).1 v 0 [] h (by omega) trivial
  rw [List.append_nil] at hrt
  rw [hrt]
  simp [skipWs]

/-! Filesystem model facts. -/

theorem contains_iff_mem (l : List String) (a : String) : l.contains a = true ↔ a ∈ l := by
  simp

theorem makedirs_mem_dirs (d : String) (dirs : List String) (p : String) (hp : p ∈ dirs) :
    p ∈ makedirs d dirs := by
  rw [makedirs]
  exact List.mem_append_left _ hp

theorem makedirs_mem_ancestor (d : String) (dirs : List String) (p : String)
    (hp : p ∈ ancestorPaths d) (hne : p ≠ "") : p ∈ makedirs d dirs := by
  rw [makedirs]
  by_cases hd : p ∈ dirs
  · exact List.mem_append_left _ hd
  · refine List.mem_append_right _ ?_
    rw [List.mem_filter]
    refine ⟨hp, ?_⟩
    simp [hne, hd]

theorem mem_makedirs (d : String) (dirs : List String) (p : String)
    (hp : p ∈ makedirs d dirs) : p ∈ dirs ∨ p ∈ ancestorPaths d := by
  rw [makedirs, List.mem_append] at hp
  rcases hp with hp | hp
  · exact Or.inl hp
  · exact Or.inr (List.mem_filter.mp hp).1

theorem makedirs_idem (d : String) (dirs : List String) :
    makedirs d (makedirs d dirs) = makedirs d dirs := by
  conv_lhs => rw [makedirs]
  have : (ancestorPaths d).filter
      (fun p => !(p == "") && !((makedirs d dirs).contains p)) = [] := by
    rw [List.filter_eq_nil_iff]
    intro p hp
    by_cases hne : p = ""
    · simp [hne]
    · have : p ∈ makedirs d dirs := makedirs_mem_ancestor d dirs p hp hne
      simp [this]
  rw [this, List.append_nil]

theorem setFile_idem (fs : List (String × String)) (p c : String) :
    setFile (setFile fs p c) p c = setFile fs p c := by
  induction fs with
  | nil => simp [setFile]
  | cons qd fs ih =>
    obtain ⟨q, d⟩ := qd
    by_cases h : q = p
    · subst h
      simp [setFile]
    · simp [setFile, h, ih]

theorem find_setFile (fs : List (String × String)) (p c : String) :
    (setFile fs p c).find? (fun qc => qc.1 == p) = some (p, c) := by
  induction fs with
  | nil => simp [setFile]
  | cons qd fs ih =>
    obtain ⟨q, d⟩ := qd
    by_cases h : q = p
    · subst h
      simp [setFile]
    · simp [setFile, h, ih]

theorem splitSlash_ne_nil (cs : List Char) : splitSlash cs ≠ [] := by
  cases cs with
  | nil => simp [splitSlash]
  | cons c cs =>
    rw [splitSlash]
    split
    · simp
    · split
      · simp
      · simp

/-- The glue of the groups after the first, each preceded by a slash. -/
def tailJoin : List (List Char) → List Char
  | [] => []
  | g :: gs => '/' :: (g ++ tailJoin gs)

theorem splitSlash_join (cs : List Char) :
    ∀ g gs, splitSlash cs = g :: gs → g ++ tailJoin gs = cs := by
  induction cs with
  | nil =>
    intro g gs h
    rw [splitSlash] at h
    injection h with h1 h2
    subst h1
    rw [← h2]
    rfl
  | cons c cs ih =>
    intro g gs h
    rw [splitSlash] at h
    by_cases hc : c = '/'
    · rw [if_pos hc] at h
      injection h with h1 h2
      subst h1
      cases hs : splitSlash cs with
      | nil => exact absurd hs (splitSlash_ne_nil cs)
      | cons g2 gs2 =>
        rw [hs] at h2
        subst h2
        rw [List.nil_append, tailJoin, ih g2 gs2 hs, hc]
    · rw [if_neg hc] at h
      cases hs : splitSlash cs with
      | nil => exact absurd hs (splitSlash_ne_nil cs)
      | cons g2 gs2 =>
        rw [hs] at h
        injection h with h1 h2
        subst h1
        subst h2
        rw [List.cons_append, ih g2 gs2 hs]

theorem ancestorsFrom_append (acc : List Char) (gs : List (List Char)) :
    ∀ p ∈ ancestorsFrom acc gs, ∃ t, p ++ t = acc ++ tailJoin gs := by
  induction gs generalizing acc with
  | nil =>
    intro p hp
    rw [ancestorsFrom, List.mem_singleton] at hp
    subst hp
    exact ⟨[], by simp [tailJoin]⟩
  | cons g gs ih =>
    intro p hp
    rw [ancestorsFrom, List.mem_cons] at hp
    rcases hp with hp | hp
    · subst hp
      exact ⟨'/' :: (g ++ tailJoin gs), by simp [tailJoin]⟩
    · obtain ⟨t, ht⟩ := ih (acc ++ '/' :: g) p hp
      refine ⟨t, ?_⟩
      rw [ht, tailJoin]
      simp

theorem ancestorsFrom_self (acc : List Char) (gs : List (List Char)) :
    acc ++ tailJoin gs ∈ ancestorsFrom acc gs := by
  induction gs generalizing acc with
  | nil => simp [ancestorsFrom, tailJoin]
  | cons g gs ih =>
    rw [ancestorsFrom, tailJoin]
    refine List.mem_cons_of_mem _ ?_
    have := ih (acc ++ '/' :: g)
    simpa using this

theorem self_mem_ancestorPaths (d : String) : d ∈ ancestorPaths d := by
  rw [ancestorPaths]
  cases hs : splitSlash d.data with
  | nil => exact absurd hs (splitSlash_ne_nil d.data)
  | cons g gs =>
    have hj := splitSlash_join d.data g gs hs
    rw [List.mem_map]
    exact ⟨g ++ tailJoin gs, ancestorsFrom_self g gs, by rw [hj]⟩

theorem ancestorPaths_length (d : String) (p : String) (hp : p ∈ ancestorPaths d) :
    p.data.length ≤ d.data.length := by
  rw [ancestorPaths] at hp
  cases hs : splitSlash d.data with
  | nil => exact absurd hs (splitSlash_ne_nil d.data)
  | cons g gs =>
    rw [hs, List.mem_map] at hp
    obtain ⟨q, hq, hmk⟩ := hp
    obtain ⟨t, ht⟩ := ancestorsFrom_append g gs q hq
    rw [splitSlash_join d.data g gs hs] at ht
    have : q.length + t.length = d.data.length := by
      rw [← ht, List.length_append]
    have hdata : p.data = q := by rw [← hmk]
    rw [hdata]
    omega

theorem all_not_slash_dropWhile (A B : List Char) (hA : ∀ c ∈ A, c ≠ '/') :
    (A ++ B).dropWhile (fun c => !(c == '/')) = B.dropWhile (fun c => !(c == '/')) := by
  induction A with
  | nil => rfl
  | cons a A ih =>
    have ha : a ≠ '/' := hA a (by simp)
    rw [List.cons_append, List.dropWhile_cons, if_pos (by simp [ha])]
    exact ih (fun c hc => hA c (by simp [hc]))

theorem dirname_append (dir fn : String) (hfn : ∀ c ∈ fn.data, c ≠ '/') :
    dirname (dir ++ "/" ++ fn) = dir := by
  rw [dirname]
  have hdata : (dir ++ "/" ++ fn).data = dir.data ++ '/' :: fn.data := by
    rw [String.data_append, String.data_append,
      show "/".data = ['/'] from by decide]
    simp
  rw [hdata, List.reverse_append]
  have : ('/' :: fn.data).reverse = fn.data.reverse ++ ['/'] := by simp
  rw [this, List.append_assoc]
  rw [all_not_slash_dropWhile fn.data.reverse _ (fun c hc => hfn c (List.mem_reverse.mp hc))]
  rw [List.singleton_append, List.dropWhile_cons]
  rw [if_neg (by simp)]
  simp [string_mk_data]

/-! Behavior of `write_json_log` in its three outcomes. -/

theorem write_json_log_success (data : PyVal) (dir fn : String) (s : St)
    (hok : (ser data 0).2 = true)
    (hopen : canOpenW { s with dirs := makedirs dir s.dirs } (osPathJoin dir fn) = true) :
    write_json_log data dir fn s =
      ⟨⟨makedirs dir s.dirs,
        setFile s.files (osPathJoin dir fn) (json_dumps data),
        s.stdout ++ [infoLine (osPathJoin dir fn)]⟩, none, none⟩ := by
  simp only [write_json_log, hopen, if_true, hok, json_dumps]

theorem write_json_log_serfail (data : PyVal) (dir fn : String) (s : St)
    (hbad : (ser data 0).2 = false)
    (hopen : canOpenW { s with dirs := makedirs dir s.dirs } (osPathJoin dir fn) = true) :
    write_json_log data dir fn s =
      ⟨⟨makedirs dir s.dirs,
        setFile s.files (osPathJoin dir fn) (String.mk (ser data 0).1),
        s.stdout⟩, some .serializationError, none⟩ := by
  simp only [write_json_log, hopen, if_true, hbad, Bool.false_eq_true, if_false]

theorem write_json_log_openfail (data : PyVal) (dir fn : String) (s : St)
    (hopen : canOpenW { s with dirs := makedirs dir s.dirs } (osPathJoin dir fn) = false) :
    write_json_log data dir fn s =
      ⟨⟨makedirs dir s.dirs, s.files, s.stdout⟩, some .filesystemError, none⟩ := by
  simp only [write_json_log, hopen, Bool.false_eq_true, if_false]

theorem getFile_setFile (s : St) (fs : List (String × String)) (p c : String)
    (h : s.files = setFile fs p c) : getFile s p = some c := by
  rw [getFile, h, find_setFile]

/-! Claims. -/

/-- C1: for every record that is a finite JSON-serializable mapping and every
filename, calling `write_json_log` with that record, an output directory, and
the filename, then reading the file at `outputDirectory/filename` and parsing
it as JSON, yields a document equal to the original record. -/
theorem C1_write_read_roundtrip (kvs : List (String × PyVal)) (dir fn : String) (s : St)
    (hwf : wfB (.obj kvs) = true)
    (hopen : canOpenW { s with dirs := makedirs dir s.dirs } (osPathJoin dir fn) = true) :
    (write_json_log (.obj kvs) dir fn s).err = none ∧
    (getFile (write_json_log (.obj kvs) dir fn s).st (osPathJoin dir fn)).bind
        (fun t => json_loads t) = some (.obj kvs) := by
  have hok := ser_ok (.obj kvs) 0 hwf
  rw [write_json_log_success _ _ _ _ hok hopen]
  refine ⟨rfl, ?_⟩
  rw [getFile_setFile _ s.files (osPathJoin dir fn) (json_dumps (.obj kvs)) rfl,
    Option.some_bind, json_roundtrip _ hwf]

/-- C1 witness: the round trip at a concrete record, directory and filename. -/
theorem C1_witness :
    wfB (.obj [("a", .int 1)]) = true ∧
    canOpenW { (⟨[], [], []⟩ : St) with dirs := makedirs "logs" (⟨[], [], []⟩ : St).dirs }
        (osPathJoin "logs" "f.json") = true ∧
    ((write_json_log (.obj [("a", .int 1)]) "logs" "f.json" ⟨[], [], []⟩).err = none ∧
     (getFile (write_json_log (.obj [("a", .int 1)]) "logs" "f.json" ⟨[], [], []⟩).st
         (osPathJoin "logs" "f.json")).bind (fun t => json_loads t) =
       some (.obj [("a", .int 1)])) :=
  ⟨by decide, by decide,
    C1_write_read_roundtrip [("a", .int 1)] "logs" "f.json" ⟨[], [], []⟩
      (by decide) (by decide)⟩

/-- C2 counterexample: at a concrete successful write, the function's return
value is `none` (Python `None`), not the resolved path the claim promises. -/
theorem C2_counterexample :
    (write_json_log (.obj [("a", .int 1)]) "logs" "f.json" ⟨[], [], []⟩).err = none ∧
    ¬((write_json_log (.obj [("a", .int 1)]) "logs" "f.json" ⟨[], [], []⟩).ret =
        some (osPathJoin "logs" "f.json")) := by
  decide

/-- C2 amended: a successful `write_json_log` returns `None` (the source is
annotated `-> None` and has no return statement); the resolved path — the
join of the output directory and the filename — is instead reported in one
informational notice printed to stdout. -/
theorem C2_returns_none_prints_path (data : PyVal) (dir fn : String) (s : St)
    (hok : (ser data 0).2 = true)
    (hopen : canOpenW { s with dirs := makedirs dir s.dirs } (osPathJoin dir fn) = true) :
    (write_json_log data dir fn s).err = none ∧
    (write_json_log data dir fn s).ret = none ∧
    (write_json_log data dir fn s).st.stdout =
      s.stdout ++ [infoLine (osPathJoin dir fn)] := by
  rw [write_json_log_success data dir fn s hok hopen]
  exact ⟨rfl, rfl, rfl⟩

/-- C2 witness: the amended behavior at a concrete input. -/
theorem C2_witness :
    (ser (.obj [("a", .int 1)]) 0).2 = true ∧
    canOpenW { (⟨[], [], []⟩ : St) with dirs := makedirs "logs" (⟨[], [], []⟩ : St).dirs }
        (osPathJoin "logs" "f.json") = true ∧
    ((write_json_log (.obj [("a", .int 1)]) "logs" "f.json" ⟨[], [], []⟩).err = none ∧
     (write_json_log (.obj [("a", .int 1)]) "logs" "f.json" ⟨[], [], []⟩).ret = none ∧
     (write_json_log (.obj [("a", .int 1)]) "logs" "f.json" ⟨[], [], []⟩).st.stdout =
       (⟨[], [], []⟩ : St).stdout ++ [infoLine (osPathJoin "logs" "f.json")]) :=
  ⟨by decide, by decide,
    C2_returns_none_prints_path (.obj [("a", .int 1)]) "logs" "f.json" ⟨[], [], []⟩
      (by decide) (by decide)⟩

/-- C3 counterexample: with filename `a/b.json` (containing a path separator)
and the intermediate directory existing, the write succeeds — no
`InvalidNameError`, and the filesystem is mutated. -/
theorem C3_counterexample :
    (write_json_log (.obj [("a", .int 1)]) "logs" "a/b.json"
        ⟨["logs", "logs/a"], [], []⟩).err = none ∧
    ¬((write_json_log (.obj [("a", .int 1)]) "logs" "a/b.json"
        ⟨["logs", "logs/a"], [], []⟩).st.files = ([] : List (String × String))) := by
  decide

/-- C3 amended: `write_json_log` performs no filename validation.  A filename
containing a path separator is simply joined to the output directory: the
write succeeds and stores the document at the joined path when that path's
parent directory exists after `makedirs`, and otherwise fails with a
filesystem error (Python `FileNotFoundError`) — never an `InvalidNameError`,
which does not exist in the code. -/
theorem C3_no_name_validation (data : PyVal) (dir fn : String) (s : St)
    (hsep : '/' ∈ fn.data) (hok : (ser data 0).2 = true) :
    (canOpenW { s with dirs := makedirs dir s.dirs } (osPathJoin dir fn) = true →
      (write_json_log data dir fn s).err = none ∧
      getFile (write_json_log data dir fn s).st (osPathJoin dir fn) =
        some (json_dumps data)) ∧
    (canOpenW { s with dirs := makedirs dir s.dirs } (osPathJoin dir fn) = false →
      (write_json_log data dir fn s).err = some .filesystemError ∧
      (write_json_log data dir fn s).st.files = s.files) := by
  constructor
  · intro hopen
    rw [write_json_log_success data dir fn s hok hopen]
    exact ⟨rfl, getFile_setFile _ s.files _ _ rfl⟩
  · intro hopen
    rw [write_json_log_openfail data dir fn s hopen]
    exact ⟨rfl, rfl⟩

/-- C3 witness: the amended behavior at a concrete separator-bearing
filename whose intermediate directory exists. -/
theorem C3_witness :
    '/' ∈ ("a/b.json" : String).data ∧
    (ser (.obj [("a", .int 1)]) 0).2 = true ∧
    ((canOpenW { (⟨["logs", "logs/a"], [], []⟩ : St) with
          dirs := makedirs "logs" (⟨["logs", "logs/a"], [], []⟩ : St).dirs }
        (osPathJoin "logs" "a/b.json") = true →
      (write_json_log (.obj [("a", .int 1)]) "logs" "a/b.json"
          ⟨["logs", "logs/a"], [], []⟩).err = none ∧
      getFile (write_json_log (.obj [("a", .int 1)]) "logs" "a/b.json"
          ⟨["logs", "logs/a"], [], []⟩).st (osPathJoin "logs" "a/b.json") =
        some (json_dumps (.obj [("a", .int 1)]))) ∧
    (canOpenW { (⟨["logs", "logs/a"], [], []⟩ : St) with
          dirs := makedirs "logs" (⟨["logs", "logs/a"], [], []⟩ : St).dirs }
        (osPathJoin "logs" "a/b.json") = false →
      (write_json_log (.obj [("a", .int 1)]) "logs" "a/b.json"
          ⟨["logs", "logs/a"], [], []⟩).err = some .filesystemError ∧
      (write_json_log (.obj [("a", .int 1)]) "logs" "a/b.json"
          ⟨["logs", "logs/a"], [], []⟩).st.files = (⟨["logs", "logs/a"], [], []⟩ : St).files)) :=
  ⟨by decide, by decide,
    C3_no_name_validation (.obj [("a", .int 1)]) "logs" "a/b.json"
      ⟨["logs", "logs/a"], [], []⟩ (by decide) (by decide)⟩

/-- C4 counterexample: writing a record containing a non-serializable value
into a not-yet-existing directory fails with the serialization error, yet the
directory has been created and the target file exists afterwards. -/
theorem C4_counterexample :
    (write_json_log (.obj [("x", .bad "set object"), ("y", .int 1)]) "newdir" "f.json"
        ⟨[], [], []⟩).err = some .serializationError ∧
    ¬((write_json_log (.obj [("x", .bad "set object"), ("y", .int 1)]) "newdir" "f.json"
        ⟨[], [], []⟩).st.dirs = ([] : List String)) ∧
    ¬(getFile (write_json_log (.obj [("x", .bad "set object"), ("y", .int 1)]) "newdir"
        "f.json" ⟨[], [], []⟩).st (osPathJoin "newdir" "f.json") = none) := by
  decide

/-- C4 amended: on a non-serializable record `write_json_log` fails with the
serialization error, but the filesystem *is* mutated first: `os.makedirs` has
already created every missing ancestor of the output directory, and the
target file has been opened for writing (truncated), so it exists and holds
exactly the prefix `json.dump` streamed before raising. -/
theorem C4_mutates_before_failing (data : PyVal) (dir fn : String) (s : St)
    (hbad : (ser data 0).2 = false)
    (hopen : canOpenW { s with dirs := makedirs dir s.dirs } (osPathJoin dir fn) = true) :
    (write_json_log data dir fn s).err = some .serializationError ∧
    (∀ p ∈ ancestorPaths dir, p ≠ "" → p ∈ (write_json_log data dir fn s).st.dirs) ∧
    getFile (write_json_log data dir fn s).st (osPathJoin dir fn) =
      some (String.mk (ser data 0).1) := by
  rw [write_json_log_serfail data dir fn s hbad hopen]
  refine ⟨rfl, ?_, getFile_setFile _ s.files _ _ rfl⟩
  intro p hp hne
  exact makedirs_mem_ancestor dir s.dirs p hp hne

/-- C4 witness: the amended behavior at a concrete non-serializable record. -/
theorem C4_witness :
    (ser (.obj [("x", .bad "set object"), ("y", .int 1)]) 0).2 = false ∧
    canOpenW { (⟨[], [], []⟩ : St) with dirs := makedirs "newdir" (⟨[], [], []⟩ : St).dirs }
        (osPathJoin "newdir" "f.json") = true ∧
    ((write_json_log (.obj [("x", .bad "set object"), ("y", .int 1)]) "newdir" "f.json"
        ⟨[], [], []⟩).err = some .serializationError ∧
     (∀ p ∈ ancestorPaths "newdir", p ≠ "" →
       p ∈ (write_json_log (.obj [("x", .bad "set object"), ("y", .int 1)]) "newdir"
         "f.json" ⟨[], [], []⟩).st.dirs) ∧
     getFile (write_json_log (.obj [("x", .bad "set object"), ("y", .int 1)]) "newdir"
         "f.json" ⟨[], [], []⟩).st (osPathJoin "newdir" "f.json") =
       some (String.mk (ser (.obj [("x", .bad "set object"), ("y", .int 1)]) 0).1)) :=
  ⟨by decide, by decide,
    C4_mutates_before_failing (.obj [("x", .bad "set object"), ("y", .int 1)]) "newdir"
      "f.json" ⟨[], [], []⟩ (by decide) (by decide)⟩

/-- Opening precondition only reads the directory set. -/
theorem canOpenW_dirs_eq {s t : St} (h : s.dirs = t.dirs) (p : String) :
    canOpenW s p = canOpenW t p := by
  rw [canOpenW, canOpenW, h]

/-- C5: writing the same serializable record to the same target twice leaves
the filesystem (directories and files) in the same observable state as
writing it once. -/
theorem C5_idempotent (data : PyVal) (dir fn : String) (s : St)
    (hwf : wfB data = true) (hfn : '/' ∉ fn.data) :
    (write_json_log data dir fn (write_json_log data dir fn s).st).st.dirs =
      (write_json_log data dir fn s).st.dirs ∧
    (write_json_log data dir fn (write_json_log data dir fn s).st).st.files =
      (write_json_log data dir fn s).st.files := by
  have hok := ser_ok data 0 hwf
  by_cases hopen : canOpenW { s with dirs := makedirs dir s.dirs } (osPathJoin dir fn) = true
  · have h1 := write_json_log_success data dir fn s hok hopen
    rw [h1]
    have hopen2 : canOpenW
        { (⟨makedirs dir s.dirs,
            setFile s.files (osPathJoin dir fn) (json_dumps data),
            s.stdout ++ [infoLine (osPathJoin dir fn)]⟩ : St) with
          dirs := makedirs dir (makedirs dir s.dirs) } (osPathJoin dir fn) = true := by
      rw [canOpenW_dirs_eq (show _ = ({ s with dirs := makedirs dir s.dirs } : St).dirs
        from by simp [makedirs_idem])]
      exact hopen
    rw [write_json_log_success data dir fn _ hok hopen2]
    simp [makedirs_idem, setFile_idem]
  · have hopen' : canOpenW { s with dirs := makedirs dir s.dirs } (osPathJoin dir fn) = false :=
      Bool.not_eq_true _ ▸ Bool.eq_false_iff.mpr (fun he => hopen he)
    have h1 := write_json_log_openfail data dir fn s hopen'
    rw [h1]
    have hopen2 : canOpenW
        { (⟨makedirs dir s.dirs, s.files, s.stdout⟩ : St) with
          dirs := makedirs dir (makedirs dir s.dirs) } (osPathJoin dir fn) = false := by
      rw [canOpenW_dirs_eq (show _ = ({ s with dirs := makedirs dir s.dirs } : St).dirs
        from by simp [makedirs_idem])]
      exact hopen'
    rw [write_json_log_openfail data dir fn _ hopen2]
    simp [makedirs_idem]

/-- C5 witness: idempotence at a concrete record and target. -/
theorem C5_witness :
    wfB (.obj [("a", .int 1)]) = true ∧
    '/' ∉ ("f.json" : String).data ∧
    ((write_json_log (.obj [("a", .int 1)]) "logs" "f.json"
        (write_json_log (.obj [("a", .int 1)]) "logs" "f.json" ⟨[], [], []⟩).st).st.dirs =
      (write_json_log (.obj [("a", .int 1)]) "logs" "f.json" ⟨[], [], []⟩).st.dirs ∧
     (write_json_log (.obj [("a", .int 1)]) "logs" "f.json"
        (write_json_log (.obj [("a", .int 1)]) "logs" "f.json" ⟨[], [], []⟩).st).st.files =
      (write_json_log (.obj [("a", .int 1)]) "logs" "f.json" ⟨[], [], []⟩).st.files) :=
  ⟨by decide, by decide,
    C5_idempotent (.obj [("a", .int 1)]) "logs" "f.json" ⟨[], [], []⟩ (by decide) (by decide)⟩

/-- C6: for a well-formed output directory path — existing or not, nested to
any depth — `write_json_log` creates every missing intermediate directory and
succeeds; an already existing directory is kept silently. -/
theorem C6_creates_all_dirs (data : PyVal) (dir fn : String) (s : St)
    (hwf : wfB data = true)
    (hdir : dir ≠ "") (hnend : dir.data.getLast? ≠ some '/')
    (hfn : fn ≠ "") (hsep : ∀ c ∈ fn.data, c ≠ '/')
    (hnotdir : osPathJoin dir fn ∉ s.dirs) :
    (write_json_log data dir fn s).err = none ∧
    (∀ p ∈ ancestorPaths dir, p ≠ "" → p ∈ (write_json_log data dir fn s).st.dirs) := by
  have hok := ser_ok data 0 hwf
  have hfn' : fn.data ≠ [] := by
    intro he
    exact hfn (by cases fn; simp at he; simp [he])
  have hhead : ¬(fn.data.head? = some '/') := by
    cases hd : fn.data with
    | nil => exact absurd hd hfn'
    | cons c cs =>
      simp only [List.head?_cons, Option.some_inj]
      exact hsep c (by rw [hd]; simp)
  have hjoin : osPathJoin dir fn = dir ++ "/" ++ fn := by
    rw [osPathJoin, if_neg hhead, if_neg hdir, if_neg hnend]
  have hdirname : dirname (osPathJoin dir fn) = dir := by
    rw [hjoin]
    exact dirname_append dir fn hsep
  have hmem : dir ∈ makedirs dir s.dirs :=
    makedirs_mem_ancestor dir s.dirs dir (self_mem_ancestorPaths dir) hdir
  have hnotmem : osPathJoin dir fn ∉ makedirs dir s.dirs := by
    intro hin
    rcases mem_makedirs dir s.dirs _ hin with hin | hin
    · exact hnotdir hin
    · have hlen := ancestorPaths_length dir _ hin
      rw [hjoin] at hlen
      rw [String.data_append, String.data_append,
        show ("/" : String).data = ['/'] from by decide] at hlen
      simp only [List.length_append, List.length_cons, List.length_nil] at hlen
      have : fn.data.length ≥ 1 := by
        cases hd : fn.data with
        | nil => exact absurd hd hfn'
        | cons c cs => simp
      omega
  have hopen : canOpenW { s with dirs := makedirs dir s.dirs } (osPathJoin dir fn) = true := by
    rw [canOpenW]
    have h1 : ({ s with dirs := makedirs dir s.dirs } : St).dirs.contains
        (dirname (osPathJoin dir fn)) = true := by
      rw [hdirname]
      exact (contains_iff_mem _ _).mpr hmem
    have h2 : ({ s with dirs := makedirs dir s.dirs } : St).dirs.contains
        (osPathJoin dir fn) = false := by
      rw [← Bool.not_eq_true]
      intro hc
      exact hnotmem ((contains_iff_mem _ _).mp hc)
    rw [h1, h2]
    simp
  rw [write_json_log_success data dir fn s hok hopen]
  refine ⟨rfl, ?_⟩
  intro p hp hne
  exact makedirs_mem_ancestor dir s.dirs p hp hne

/-- C6 witness: a directory nested two levels deep is fully created. -/
theorem C6_witness :
    wfB (.obj [("a", .int 1)]) = true ∧
    ("logs/sub" : String) ≠ "" ∧
    ("logs/sub" : String).data.getLast? ≠ some '/' ∧
    ("f.json" : String) ≠ "" ∧
    (∀ c ∈ ("f.json" : String).data, c ≠ '/') ∧
    osPathJoin "logs/sub" "f.json" ∉ (⟨[], [], []⟩ : St).dirs ∧
    ((write_json_log (.obj [("a", .int 1)]) "logs/sub" "f.json" ⟨[], [], []⟩).err = none ∧
     (∀ p ∈ ancestorPaths "logs/sub", p ≠ "" →
       p ∈ (write_json_log (.obj [("a", .int 1)]) "logs/sub" "f.json" ⟨[], [], []⟩).st.dirs)) :=
  ⟨by decide, by decide, by decide, by decide, by decide, by decide,
    C6_creates_all_dirs (.obj [("a", .int 1)]) "logs/sub" "f.json" ⟨[], [], []⟩
      (by decide) (by decide) (by decide) (by decide) (by decide) (by decide)⟩

/-- C9: `capture_ai_interactions` copies the prompt and the response verbatim
into the record's `prompt` and `response` fields, and its only other key is
`timestamp`. -/
theorem C9_capture_verbatim (prompt response now : String) :
    objLookup (capture_ai_interactions prompt response now) "prompt" =
      some (.str prompt) ∧
    objLookup (capture_ai_interactions prompt response now) "response" =
      some (.str response) ∧
    objKeys (capture_ai_interactions prompt response now) =
      ["timestamp", "prompt", "response"] := by
  refine ⟨?_, ?_, rfl⟩
  · simp [capture_ai_interactions, objLookup]
  · simp [capture_ai_interactions, objLookup]

/-- C10: `run_sonarqube_analysis` returns the same fixed metrics record for
all arguments; in particular the token never influences the result. -/
theorem C10_sonar_noninterference (repo_path project_key token
    repo_path2 project_key2 token2 : String) :
    run_sonarqube_analysis repo_path project_key token =
      run_sonarqube_analysis repo_path2 project_key2 token2 := rfl

/-! Indentation analysis: every space run following a newline in an emitted
document has even length, i.e. the document is indented in 2-space steps. -/

theorem hexDig_ne_nl {k : Nat} (h : k < 16) : hexDig k ≠ '\n' := by
  interval_cases k <;> decide

theorem noNl_hex4 (n : Nat) : '\n' ∉ hex4 n := by
  intro hmem
  rw [hex4] at hmem
  rcases List.mem_cons.mp hmem with h | hmem
  · exact hexDig_ne_nl (Nat.mod_lt _ (by omega)) h.symm
  rcases List.mem_cons.mp hmem with h | hmem
  · exact hexDig_ne_nl (Nat.mod_lt _ (by omega)) h.symm
  rcases List.mem_cons.mp hmem with h | hmem
  · exact hexDig_ne_nl (Nat.mod_lt _ (by omega)) h.symm
  rcases List.mem_cons.mp hmem with h | hmem
  · exact hexDig_ne_nl (Nat.mod_lt _ (by omega)) h.symm
  · exact absurd hmem (List.not_mem_nil _)

theorem noNl_escChar (c : Char) : '\n' ∉ escChar c := by
  rw [escChar]
  split_ifs with h1 h2 h3 h4 h5 h6 h7 h8 h9
  · decide
  · decide
  · decide
  · decide
  · decide
  · decide
  · decide
  · intro hmem
    rw [List.mem_singleton] at hmem
    subst hmem
    exact absurd h8 (by decide)
  · intro hmem
    simp only [List.mem_cons] at hmem
    rcases hmem with h | h | h
    · exact absurd h (by decide)
    · exact absurd h (by decide)
    · exact noNl_hex4 c.toNat h
  · intro hmem
    rcases List.mem_append.mp hmem with h | h
    · rcases List.mem_cons.mp h with h1 | h
      · exact absurd h1 (by decide)
      rcases List.mem_cons.mp h with h1 | h
      · exact absurd h1 (by decide)
      · exact noNl_hex4 _ h
    · rcases List.mem_cons.mp h with h1 | h
      · exact absurd h1 (by decide)
      rcases List.mem_cons.mp h with h1 | h
      · exact absurd h1 (by decide)
      · exact noNl_hex4 _ h

theorem noNl_escStr (s : List Char) : '\n' ∉ escStr s := by
  induction s with
  | nil => simp [escStr]
  | cons c cs ih =>
    rw [escStr]
    intro hmem
    rw [List.mem_append] at hmem
    rcases hmem with h | h
    · exact noNl_escChar c h
    · exact ih h

theorem noNl_serStrC (s : List Char) : '\n' ∉ serStrC s := by
  rw [serStrC]
  intro hmem
  rcases List.mem_cons.mp hmem with h | hmem
  · exact absurd h (by decide)
  rcases List.mem_append.mp hmem with h | h
  · exact noNl_escStr s h
  · rw [List.mem_singleton] at h
    exact absurd h (by decide)

theorem noNl_natDigits (n : Nat) : '\n' ∉ natDigits n := by
  intro hmem
  have := isDigit_toNat (natDigits_digits n '\n' hmem)
  simp at this

theorem noNl_serInt (n : Int) : '\n' ∉ serInt n := by
  rw [serInt]
  split
  · intro hmem
    rw [List.mem_cons] at hmem
    rcases hmem with h | h
    · exact absurd h (by decide)
    · exact noNl_natDigits _ h
  · exact noNl_natDigits _

theorem noNl_serFloat (m : Int) (d : Nat) : '\n' ∉ serFloat m d := by
  rw [serFloat]
  intro hmem
  rcases List.mem_append.mp hmem with h | hmem2
  · rcases List.mem_append.mp h with h | h
    · split at h
      · rw [List.mem_singleton] at h
        exact absurd h (by decide)
      · exact absurd h (List.not_mem_nil _)
    · exact noNl_natDigits _ h
  · rcases List.mem_cons.mp hmem2 with h | h
    · exact absurd h (by decide)
    · rw [fracDigits] at h
      rcases List.mem_append.mp h with h | h
      · have := List.eq_of_mem_replicate h
        exact absurd this (by decide)
      · exact noNl_natDigits _ h

theorem indStep_none {c : Char} (acc : List Nat) (h : c ≠ '\n') :
    indStep (acc, none) c = (acc, none) := by
  simp [indStep, h]

theorem foldl_indStep_noNl (cs : List Char) (acc : List Nat) (h : '\n' ∉ cs) :
    List.foldl indStep (acc, none) cs = (acc, none) := by
  induction cs with
  | nil => rfl
  | cons c cs ih =>
    rw [List.foldl_cons, indStep_none acc (fun he => h (by rw [he]; simp))]
    exact ih (fun hm => h (List.mem_cons_of_mem c hm))

theorem foldl_indStep_spaces (j : Nat) (k : Nat) (acc : List Nat) :
    List.foldl indStep (acc, some k) (List.replicate j ' ') = (acc, some (k + j)) := by
  induction j generalizing k with
  | zero => rfl
  | succ j ih =>
    rw [List.replicate_succ, List.foldl_cons,
      show indStep (acc, some k) ' ' = (acc, some (k + 1)) from by simp [indStep]]
    rw [ih (k + 1), show k + 1 + j = k + (j + 1) from by omega]

theorem foldl_indStep_nlInd (j : Nat) (acc : List Nat) :
    List.foldl indStep (acc, none) (nlInd j) = (acc, some j) := by
  rw [nlInd, List.foldl_cons,
    show indStep (acc, none) '\n' = (acc, some 0) from by simp [indStep]]
  rw [foldl_indStep_spaces j 0 acc]
  simp

theorem foldl_indStep_close {c : Char} (cs : List Char) (acc : List Nat) (k : Nat)
    (h1 : c ≠ '\n') (h2 : c ≠ ' ') :
    List.foldl indStep (acc, some k) (c :: cs) =
      List.foldl indStep (acc ++ [k], none) (c :: cs) := by
  rw [List.foldl_cons, List.foldl_cons,
    show indStep (acc, some k) c = (acc ++ [k], none) from by simp [indStep, h1, h2],
    indStep_none _ h1]

theorem not_ws_pair {c : Char} (h : isWsB c = false) : c ≠ '\n' ∧ c ≠ ' ' := by
  simp only [isWsB, Bool.or_eq_false_iff, beq_eq_false_iff_ne] at h
  exact ⟨h.1.2, h.1.1.1⟩

theorem foldl_noNl_exists (cs : List Char) (acc : List Nat) (h : '\n' ∉ cs) :
    ∃ L, List.foldl indStep (acc, none) cs = (acc ++ L, none) ∧ ∀ n ∈ L, 2 ∣ n :=
  ⟨[], by rw [foldl_indStep_noNl _ _ h]; simp, by simp⟩

theorem foldl_some_noNl (c : Char) (cs : List Char) (acc : List Nat) (k : Nat)
    (h1 : c ≠ '\n') (h2 : c ≠ ' ') (h : '\n' ∉ c :: cs) :
    List.foldl indStep (acc, some k) (c :: cs) = (acc ++ [k], none) := by
  rw [foldl_indStep_close cs acc k h1 h2, foldl_indStep_noNl _ _ h]

mutual

theorem indentV : ∀ (v : PyVal) (ind : Nat) (acc : List Nat), wfB v = true → 2 ∣ ind →
    ∃ L, List.foldl indStep (acc, none) (ser v ind).1 = (acc ++ L, none) ∧ ∀ n ∈ L, 2 ∣ n
  | .null, ind, acc, h, hind => by
    rw [show (ser PyVal.null ind).1 = ['n', 'u', 'l', 'l'] from rfl]
    exact foldl_noNl_exists _ acc (by decide)
  | .bool true, ind, acc, h, hind => by
    rw [show (ser (PyVal.bool true) ind).1 = ['t', 'r', 'u', 'e'] from rfl]
    exact foldl_noNl_exists _ acc (by decide)
  | .bool false, ind, acc, h, hind => by
    rw [show (ser (PyVal.bool false) ind).1 = ['f', 'a', 'l', 's', 'e'] from rfl]
    exact foldl_noNl_exists _ acc (by decide)
  | .int n, ind, acc, h, hind => by
    rw [show (ser (PyVal.int n) ind).1 = serInt n from rfl]
    exact foldl_noNl_exists _ acc (noNl_serInt n)
  | .float m d, ind, acc, h, hind => by
    rw [show (ser (PyVal.float m d) ind).1 = serFloat m d from rfl]
    exact foldl_noNl_exists _ acc (noNl_serFloat m d)
  | .str s, ind, acc, h, hind => by
    rw [show (ser (PyVal.str s) ind).1 = serStrC s.data from rfl]
    exact foldl_noNl_exists _ acc (noNl_serStrC s.data)
  | .bad s, ind, acc, h, hind => by simp [wfB] at h
  | .arr [], ind, acc, h, hind => by
    rw [show (ser (PyVal.arr []) ind).1 = ['[', ']'] from rfl]
    exact foldl_noNl_exists _ acc (by decide)
  | .obj [], ind, acc, h, hind => by
    rw [show (ser (PyVal.obj []) ind).1 = ['{', '}'] from rfl]
    exact foldl_noNl_exists _ acc (by decide)
  | .arr (x :: xs), ind, acc, h, hind => by
    have hl : wfL (x :: xs) = true := by simpa [wfB] using h
    rw [ser_arr_shape x xs ind hl]
    obtain ⟨L, hL, hev⟩ := indentI x xs (ind + 2) acc hl (by omega)
    refine ⟨L ++ [ind], ?_, ?_⟩
    · have hopen : List.foldl indStep (acc, none)
          ('[' :: (serItems (x :: xs) (ind + 2)).1) = (acc ++ L, none) := by
        rw [List.foldl_cons, indStep_none acc (by decide), hL]
      rw [List.foldl_append, List.foldl_append, hopen, foldl_indStep_nlInd]
      simp [indStep, List.append_assoc]
    · intro n hn
      rcases List.mem_append.mp hn with hn | hn
      · exact hev n hn
      · rw [List.mem_singleton] at hn
        subst hn
        exact hind
  | .obj (kv :: kvs), ind, acc, h, hind => by
    have hm : wfM (kv :: kvs) = true := by simpa [wfB] using h
    rw [ser_obj_shape kv kvs ind hm]
    obtain ⟨L, hL, hev⟩ := indentM kv kvs (ind + 2) acc hm (by omega)
    refine ⟨L ++ [ind], ?_, ?_⟩
    · have hopen : List.foldl indStep (acc, none)
          ('{' :: (serMembers (kv :: kvs) (ind + 2)).1) = (acc ++ L, none) := by
        rw [List.foldl_cons, indStep_none acc (by decide), hL]
      rw [List.foldl_append, List.foldl_append, hopen, foldl_indStep_nlInd]
      simp [indStep, List.append_assoc]
    · intro n hn
      rcases List.mem_append.mp hn with hn | hn
      · exact hev n hn
      · rw [List.mem_singleton] at hn
        subst hn
        exact hind
termination_by v _ _ _ _ => sizeOf v
decreasing_by all_goals (simp_wf; omega)

theorem indentI : ∀ (x : PyVal) (xs : List PyVal) (ind : Nat) (acc : List Nat),
    wfL (x :: xs) = true → 2 ∣ ind →
    ∃ L, List.foldl indStep (acc, none) (serItems (x :: xs) ind).1 = (acc ++ L, none) ∧
      ∀ n ∈ L, 2 ∣ n
  | x, [], ind, acc, h, hind => by
    have hparts := h
    rw [wfL, Bool.and_eq_true] at hparts
    rw [serItems_single x ind (ser_ok x ind hparts.1)]
    obtain ⟨c0, cs0, hser0, hws0, hb1, hb2⟩ := ser_head x ind hparts.1
    obtain ⟨hc1, hc2⟩ := not_ws_pair hws0
    obtain ⟨L, hL, hev⟩ := indentV x ind (acc ++ [ind]) hparts.1 hind
    refine ⟨[ind] ++ L, ?_, ?_⟩
    · have hval : List.foldl indStep (acc, some ind) (ser x ind).1 =
          (acc ++ [ind] ++ L, none) := by
        rw [hser0, foldl_indStep_close cs0 acc ind hc1 hc2, ← hser0, hL]
      rw [List.foldl_append, foldl_indStep_nlInd, hval, List.append_assoc]
    · intro n hn
      rcases List.mem_append.mp hn with hn | hn
      · rw [List.mem_singleton] at hn
        subst hn
        exact hind
      · exact hev n hn
  | x, y :: ys, ind, acc, h, hind => by
    have hparts := h
    rw [wfL, Bool.and_eq_true] at hparts
    rw [serItems_cons2 x y ys ind (ser_ok x ind hparts.1)]
    obtain ⟨c0, cs0, hser0, hws0, hb1, hb2⟩ := ser_head x ind hparts.1
    obtain ⟨hc1, hc2⟩ := not_ws_pair hws0
    obtain ⟨L, hL, hev⟩ := indentV x ind (acc ++ [ind]) hparts.1 hind
    obtain ⟨L2, hL2, hev2⟩ := indentI y ys ind (acc ++ [ind] ++ L) hparts.2 hind
    refine ⟨[ind] ++ L ++ L2, ?_, ?_⟩
    · have hval : List.foldl indStep (acc, some ind) (ser x ind).1 =
          (acc ++ [ind] ++ L, none) := by
        rw [hser0, foldl_indStep_close cs0 acc ind hc1 hc2, ← hser0, hL]
      have hfirst : List.foldl indStep (acc, none) (nlInd ind ++ (ser x ind).1) =
          (acc ++ [ind] ++ L, none) := by
        rw [List.foldl_append, foldl_indStep_nlInd, hval]
      have hrest : List.foldl indStep ((acc ++ [ind] ++ L, none) : List Nat × Option Nat)
          (',' :: (serItems (y :: ys) ind).1) =
          (acc ++ [ind] ++ L ++ L2, none) := by
        rw [List.foldl_cons, indStep_none _ (by decide), hL2]
      rw [List.foldl_append, hfirst, hrest]
      simp [List.append_assoc]
    · intro n hn
      rcases List.mem_append.mp hn with hn | hn
      · rcases List.mem_append.mp hn with hn | hn
        · rw [List.mem_singleton] at hn
          subst hn
          exact hind
        · exact hev n hn
      · exact hev2 n hn
termination_by x xs _ _ _ _ => sizeOf x + sizeOf xs + 1
decreasing_by all_goals (simp_wf; omega)

theorem indentM : ∀ (kv : String × PyVal) (kvs : List (String × PyVal)) (ind : Nat)
    (acc : List Nat), wfM (kv :: kvs) = true → 2 ∣ ind →
    ∃ L, List.foldl indStep (acc, none) (serMembers (kv :: kvs) ind).1 = (acc ++ L, none) ∧
      ∀ n ∈ L, 2 ∣ n
  | (k, v), [], ind, acc, h, hind => by
    have hparts := h
    rw [wfM, Bool.and_eq_true, Bool.and_eq_true] at hparts
    rw [serMembers_single k v ind (ser_ok v ind hparts.1.2)]
    obtain ⟨L, hL, hev⟩ := indentV v ind (acc ++ [ind]) hparts.1.2 hind
    refine ⟨[ind] ++ L, ?_, ?_⟩
    · have hkey : List.foldl indStep (acc, some ind) (serStrC k.data) =
          (acc ++ [ind], none) := by
        rw [show serStrC k.data = '"' :: (escStr k.data ++ ['"']) from rfl]
        refine foldl_some_noNl _ _ acc ind (by decide) (by decide) ?_
        rw [show '"' :: (escStr k.data ++ ['"']) = serStrC k.data from rfl]
        exact noNl_serStrC k.data
      have hfirst : List.foldl indStep (acc, none) (nlInd ind ++ serStrC k.data) =
          (acc ++ [ind], none) := by
        rw [List.foldl_append, foldl_indStep_nlInd, hkey]
      have hrest : List.foldl indStep ((acc ++ [ind], none) : List Nat × Option Nat)
          (':' :: ' ' :: (ser v ind).1) = (acc ++ [ind] ++ L, none) := by
        rw [List.foldl_cons, indStep_none _ (by decide), List.foldl_cons,
          indStep_none _ (by decide), hL]
      rw [List.foldl_append, hfirst, hrest, List.append_assoc]
    · intro n hn
      rcases List.mem_append.mp hn with hn | hn
      · rw [List.mem_singleton] at hn
        subst hn
        exact hind
      · exact hev n hn
  | (k, v), kv2 :: kvs2, ind, acc, h, hind => by
    have hparts := h
    rw [wfM, Bool.and_eq_true, Bool.and_eq_true] at hparts
    rw [serMembers_cons2 k v kv2 kvs2 ind (ser_ok v ind hparts.1.2)]
    obtain ⟨L, hL, hev⟩ := indentV v ind (acc ++ [ind]) hparts.1.2 hind
    obtain ⟨L2, hL2, hev2⟩ := indentM kv2 kvs2 ind (acc ++ [ind] ++ L) hparts.2 hind
    refine ⟨[ind] ++ L ++ L2, ?_, ?_⟩
    · have hkey : List.foldl indStep (acc, some ind) (serStrC k.data) =
          (acc ++ [ind], none) := by
        rw [show serStrC k.data = '"' :: (escStr k.data ++ ['"']) from rfl]
        refine foldl_some_noNl _ _ acc ind (by decide) (by decide) ?_
        rw [show '"' :: (escStr k.data ++ ['"']) = serStrC k.data from rfl]
        exact noNl_serStrC k.data
      have hfirst : List.foldl indStep (acc, none) (nlInd ind ++ serStrC k.data) =
          (acc ++ [ind], none) := by
        rw [List.foldl_append, foldl_indStep_nlInd, hkey]
      have hmid : List.foldl indStep ((acc ++ [ind], none) : List Nat × Option Nat)
          (':' :: ' ' :: (ser v ind).1) = (acc ++ [ind] ++ L, none) := by
        rw [List.foldl_cons, indStep_none _ (by decide), List.foldl_cons,
          indStep_none _ (by decide), hL]
      have hrest : List.foldl indStep ((acc ++ [ind] ++ L, none) : List Nat × Option Nat)
          (',' :: (serMembers (kv2 :: kvs2) ind).1) =
          (acc ++ [ind] ++ L ++ L2, none) := by
        rw [List.foldl_cons, indStep_none _ (by decide), hL2]
      rw [List.foldl_append, List.foldl_append, hfirst, hmid, hrest]
      simp [List.append_assoc]
    · intro n hn
      rcases List.mem_append.mp hn with hn | hn
      · rcases List.mem_append.mp hn with hn | hn
        · rw [List.mem_singleton] at hn
          subst hn
          exact hind
        · exact hev n hn
      · exact hev2 n hn
termination_by kv kvs _ _ _ _ => sizeOf kv + sizeOf kvs + 1
decreasing_by all_goals (simp_wf; omega)

end

/-- C7: documents written by `write_json_log` are pretty-printed with stable
2-space indentation — every space run following a newline has even length —
and the record's keys appear in the document in their original insertion
order, with no reordering. -/
theorem C7_pretty_two_space_ordered (kvs : List (String × PyVal)) (dir fn : String) (s : St)
    (hwf : wfB (.obj kvs) = true)
    (hopen : canOpenW { s with dirs := makedirs dir s.dirs } (osPathJoin dir fn) = true) :
    getFile (write_json_log (.obj kvs) dir fn s).st (osPathJoin dir fn) =
      some (json_dumps (.obj kvs)) ∧
    (∀ n ∈ indentRuns (json_dumps (.obj kvs)).data, 2 ∣ n) ∧
    (json_loads (json_dumps (.obj kvs))).map objKeys = some (kvs.map Prod.fst) := by
  have hok := ser_ok (.obj kvs) 0 hwf
  rw [write_json_log_success _ _ _ _ hok hopen]
  refine ⟨getFile_setFile _ s.files _ _ rfl, ?_, ?_⟩
  · intro n hn
    have hdata : (json_dumps (.obj kvs)).data = (ser (.obj kvs) 0).1 := rfl
    rw [hdata] at hn
    obtain ⟨L, hL, hev⟩ := indentV (.obj kvs) 0 [] hwf ⟨0, rfl⟩
    rw [indentRuns, hL] at hn
    simp only [List.nil_append] at hn
    exact hev n hn
  · rw [json_roundtrip _ hwf]
    simp [objKeys]

/-- C7 witness: content, 2-space indentation and key order at a concrete
two-key record. -/
theorem C7_witness :
    wfB (.obj [("b", .int 2), ("a", .arr [.int 1])]) = true ∧
    canOpenW { (⟨[], [], []⟩ : St) with dirs := makedirs "logs" (⟨[], [], []⟩ : St).dirs }
        (osPathJoin "logs" "f.json") = true ∧
    (getFile (write_json_log (.obj [("b", .int 2), ("a", .arr [.int 1])]) "logs" "f.json"
        ⟨[], [], []⟩).st (osPathJoin "logs" "f.json") =
      some (json_dumps (.obj [("b", .int 2), ("a", .arr [.int 1])])) ∧
     (∀ n ∈ indentRuns (json_dumps (.obj [("b", .int 2), ("a", .arr [.int 1])])).data, 2 ∣ n) ∧
     (json_loads (json_dumps (.obj [("b", .int 2), ("a", .arr [.int 1])]))).map objKeys =
       some (["b", "a"] : List String)) :=
  ⟨by decide, by decide,
    C7_pretty_two_space_ordered [("b", .int 2), ("a", .arr [.int 1])] "logs" "f.json"
      ⟨[], [], []⟩ (by decide) (by decide)⟩

/-- The opening check never reads file contents or stdout. -/
theorem canOpenW_files_irrel (D : List String) (f : List (String × String))
    (o : List String) (p : String) :
    canOpenW ⟨D, f, o⟩ p = canOpenW ⟨D, [], []⟩ p := rfl

/-- C8: `main` invoked with `outputDir = ./logs` on an empty filesystem
succeeds and writes exactly four documents named `commit_metadata.json`,
`sonar_metrics.json`, `ai_interactions.json` and `coverage.json`, and
`coverage.json` holds exactly the record with 1000 total lines, 850 covered
lines and 85.0 percent coverage. -/
theorem C8_main_four_documents (now1 now2 : String) :
    (main "." "./logs" now1 now2 ⟨[], [], []⟩).2 = none ∧
    (main "." "./logs" now1 now2 ⟨[], [], []⟩).1.files.map Prod.fst =
      ["./logs/commit_metadata.json", "./logs/sonar_metrics.json",
       "./logs/ai_interactions.json", "./logs/coverage.json"] ∧
    getFile (main "." "./logs" now1 now2 ⟨[], [], []⟩).1 "./logs/coverage.json" =
      some (json_dumps coverage_record) ∧
    json_loads (json_dumps coverage_record) = some coverage_record := by
  have hwf1 : wfB (commit_metadata now1) = true := by
    simp +decide [commit_metadata, wfB, wfM, wfL]
  have hwf3 : wfB (capture_ai_interactions "How to implement a binary search?"
      "Here is a Python implementation of binary search..." now2) = true := by
    simp +decide [capture_ai_interactions, wfB, wfM, wfL]
  have hok1 := ser_ok _ 0 hwf1
  have hok2 : (ser (run_sonarqube_analysis "." "PROJECT_KEY" "TOKEN") 0).2 = true :=
    ser_ok _ 0 (by decide)
  have hok3 := ser_ok _ 0 hwf3
  have hok4 : (ser coverage_record 0).2 = true := ser_ok _ 0 (by decide)
  have hmk1 : makedirs "./logs" ([] : List String) = [".", "./logs"] := by decide
  have hmk2 : makedirs "./logs" [".", "./logs"] = [".", "./logs"] := by decide
  have hj1 : osPathJoin "./logs" "commit_metadata.json" = "./logs/commit_metadata.json" := by
    decide
  have hj2 : osPathJoin "./logs" "sonar_metrics.json" = "./logs/sonar_metrics.json" := by
    decide
  have hj3 : osPathJoin "./logs" "ai_interactions.json" = "./logs/ai_interactions.json" := by
    decide
  have hj4 : osPathJoin "./logs" "coverage.json" = "./logs/coverage.json" := by decide
  have hc1 : canOpenW ⟨[".", "./logs"], [], []⟩ "./logs/commit_metadata.json" = true := by
    decide
  have hc2 : canOpenW ⟨[".", "./logs"], [], []⟩ "./logs/sonar_metrics.json" = true := by
    decide
  have hc3 : canOpenW ⟨[".", "./logs"], [], []⟩ "./logs/ai_interactions.json" = true := by
    decide
  have hc4 : canOpenW ⟨[".", "./logs"], [], []⟩ "./logs/coverage.json" = true := by decide
  refine ⟨?_, ?_, ?_, json_roundtrip coverage_record (by decide)⟩ <;>
    simp +decide [main, write_json_log, hok1, hok2, hok3, hok4, hmk1, hmk2, hj1, hj2,
      hj3, hj4, canOpenW_files_irrel, hc1, hc2, hc3, hc4, setFile, getFile, infoLine,
      json_dumps]

end DataCollection
